import Mathlib

/-!
Verification of the Whisker search-based test-generation core.

Shallow embedding of the TypeScript sources:
 * `src/src/whisker/search/algorithms/SearchAlgorithmType.ts`
   (the `SearchAlgorithmType` enum and the `MOSA` class),
 * `src/src/whisker/testgenerator/RandomTestGenerator.ts`,
 * `src/unnamed/part_001` (`WhiskerSearchConfiguration`),
 * the spec's description of `SinglePointRelativeCrossover` (its
   implementation file is not in the corpus, only its test).

Modelling conventions:
 * TypeScript `number` fitness values are modelled as `ℤ` (the code
   only compares them); chromosome lengths as `ℕ`
   (`Number.MAX_SAFE_INTEGER = 2^53 - 1`); the relative cut point of
   `SinglePointRelativeCrossover` as `ℚ`.
 * A chromosome is an element of an abstract type `C` with decidable
   equality; distinct values model distinct objects (the TS code keys its
   `Map`s by object identity, and equal references are equal objects).
   A list with a repeated value models a list holding the same object twice.
 * The utility class `List<T>` is an array: `contains` / `remove` use
   identity (`===`) semantics, so they are modelled by `∈` / `List.erase`
   (remove first occurrence); `clone` copies, `addList` is `++`,
   `subList(0, k)` is `List.take k`.
 * `Map<number, FitnessFunction>` iterated in insertion order is modelled
   as an association list `List (ℕ × FitnessFunction C)`; the archive
   `Map<number, C>` as a function `ℕ → Option C` (`none` = key absent).
 * Thrown exceptions are modelled with `Except` / distinguished results.
-/

namespace Whisker

/-- The `FitnessFunction` interface: `getFitness`, `isOptimal`, `compare`
(`compare > 0` means the first value is better) and `isCovered`
(used by `RandomTestGenerator`).  Numeric fitness and comparison values
are modelled as `ℤ`: the code only ever tests their sign or equality. -/
structure FitnessFunction (C : Type) where
  getFitness : C → ℤ
  isOptimal : ℤ → Bool
  compare : ℤ → ℤ → ℤ
  isCovered : C → Bool

/-! ## `SearchAlgorithmType` enum and `WhiskerSearchConfiguration`

From `SearchAlgorithmType.ts`: the enum declares exactly the members
`RANDOM`, `MOSA`, `MIO`, `ONE_PLUS_ONE`.  `WhiskerSearchConfiguration`
(in `src/unnamed/part_001`) switches on configuration strings. -/

/-- The `SearchAlgorithmType` enum of `SearchAlgorithmType.ts`; it has no
`SIMPLEGA` member.  (The member called `MIO` in the source is named
`MIO_ALG` here.) -/
inductive SearchAlgorithmType where
  | RANDOM
  | MOSA
  | MIO_ALG
  | ONE_PLUS_ONE
deriving DecidableEq

/-- Result of `WhiskerSearchConfiguration.getAlgorithm`.  `ok t` models
returning the enum member `t`; `undefinedMember` models returning a
property that the `SearchAlgorithmType` enum does not declare (in the
compiled JavaScript this is the value `undefined`); `illegalArgument`
models `throw new IllegalArgumentException(...)`. -/
inductive GetAlgorithmResult where
  | ok (t : SearchAlgorithmType)
  | undefinedMember
  | illegalArgument
deriving DecidableEq

/-- Model of `WhiskerSearchConfiguration.getAlgorithm` (part_001, lines 183-198).
The `'simplega'` case returns `SearchAlgorithmType.SIMPLEGA`, but the enum
in `SearchAlgorithmType.ts` declares no such member. -/
def getAlgorithm : String → GetAlgorithmResult
  | "random" => .ok .RANDOM
  | "one-plus-one" => .ok .ONE_PLUS_ONE
  | "simplega" => .undefinedMember
  | "mosa" => .ok .MOSA
  | "mio" => .ok .MIO_ALG
  | _ => .illegalArgument

/-- The mutation operators reachable from `_getMutationOperator`. -/
inductive MutationOperatorKind where
  | bitflipMutation
  | variableLengthMutation
  | integerListMutation
deriving DecidableEq

/-- Model of `WhiskerSearchConfiguration._getMutationOperator`: the `'integerlist'`
case falls through to the `default` case, both returning
`IntegerListMutation`; no branch throws. -/
def getMutationOperator : String → MutationOperatorKind
  | "bitflip" => .bitflipMutation
  | "variablelength" => .variableLengthMutation
  | _ => .integerListMutation

/-- The crossover operators reachable from `_getCrossoverOperator`. -/
inductive CrossoverOperatorKind where
  | singlePointRelativeCrossoverOp
  | singlePointCrossoverOp
deriving DecidableEq

/-- Model of `WhiskerSearchConfiguration._getCrossoverOperator`: `'singlepoint'` and
the `default` case both return `SinglePointCrossover`; no branch throws. -/
def getCrossoverOperator : String → CrossoverOperatorKind
  | "singlepointrelative" => .singlePointRelativeCrossoverOp
  | _ => .singlePointCrossoverOp

/-- The selection operators reachable from `getSelectionOperator`. -/
inductive SelectionOperatorKind where
  | tournamentSelection
  | rankSelection
deriving DecidableEq

/-- Model of `WhiskerSearchConfiguration.getSelectionOperator`: `'rank'` and the
`default` case both return `RankSelection`; no branch throws. -/
def getSelectionOperator : String → SelectionOperatorKind
  | "tournament" => .tournamentSelection
  | _ => .rankSelection

/-- The chromosome generators reachable from `getChromosomeGenerator`. -/
inductive ChromosomeGeneratorKind where
  | bitstringGenerator
  | integerListGenerator
  | variableLengthTestGenerator
  | testGenerator
deriving DecidableEq

/-- Model of `WhiskerSearchConfiguration.getChromosomeGenerator`: `'test'` and the
`default` case both return `TestChromosomeGenerator`; no branch throws. -/
def getChromosomeGenerator : String → ChromosomeGeneratorKind
  | "bitstring" => .bitstringGenerator
  | "integerlist" => .integerListGenerator
  | "variablelengthtest" => .variableLengthTestGenerator
  | _ => .testGenerator

/-- The `FitnessFunctionType` enum values. -/
inductive FitnessFunctionType where
  | STATEMENT
  | ONE_MAX
  | SINGLE_BIT
deriving DecidableEq

/-- Model of `WhiskerSearchConfiguration.getFitnessFunctionType`: `'single-bit'` and
the `default` case both return `SINGLE_BIT`; no branch throws. -/
def getFitnessFunctionType : String → FitnessFunctionType
  | "statement" => .STATEMENT
  | "one-max" => .ONE_MAX
  | _ => .SINGLE_BIT

/-! ## `RandomTestGenerator` -/

/-- Exception kinds thrown by the core. -/
inductive WhiskerException where
  | notSupportedFunction
  | notYetImplemented
deriving DecidableEq

/-- Observable state of a `RandomTestGenerator`
(`_iterations`, `_tests`, `_startTime`). -/
structure RandomTestGeneratorState (C : Type) where
  iterations : ℕ
  tests : List C
  startTime : ℕ

/-- Model of `RandomTestGenerator.findSolution` — unconditionally throws
`NotSupportedFunctionException`. -/
def rtgFindSolution (C : Type) : Except WhiskerException (List C) :=
  .error .notSupportedFunction

/-- Model of `RandomTestGenerator.setChromosomeGenerator` — unconditionally throws. -/
def rtgSetChromosomeGenerator {G : Type} (_generator : G) :
    Except WhiskerException Unit :=
  .error .notSupportedFunction

/-- Model of `RandomTestGenerator.setFitnessFunction` — unconditionally throws. -/
def rtgSetFitnessFunction {C : Type} (_ff : FitnessFunction C) :
    Except WhiskerException Unit :=
  .error .notSupportedFunction

/-- Model of `RandomTestGenerator.setFitnessFunctions` — unconditionally throws. -/
def rtgSetFitnessFunctions {C : Type} (_ffs : List (ℕ × FitnessFunction C)) :
    Except WhiskerException Unit :=
  .error .notSupportedFunction

/-- Model of `RandomTestGenerator.setHeuristicFunctions` — unconditionally throws. -/
def rtgSetHeuristicFunctions (_hs : List (ℕ × (ℤ → ℚ))) :
    Except WhiskerException Unit :=
  .error .notSupportedFunction

/-- Model of `RandomTestGenerator.setProperties` — unconditionally throws. -/
def rtgSetProperties {P : Type} (_properties : P) :
    Except WhiskerException Unit :=
  .error .notSupportedFunction

/-- Model of `RandomTestGenerator.setSelectionOperator` — unconditionally throws. -/
def rtgSetSelectionOperator {S : Type} (_selection : S) :
    Except WhiskerException Unit :=
  .error .notSupportedFunction

/-- Model of `RandomTestGenerator.getNumberOfIterations` — returns `_iterations`. -/
def rtgGetNumberOfIterations {C : Type} (st : RandomTestGeneratorState C) : ℕ :=
  st.iterations

/-- Model of `RandomTestGenerator.getCurrentSolution` — returns `_tests`. -/
def rtgGetCurrentSolution {C : Type} (st : RandomTestGeneratorState C) : List C :=
  st.tests

/-- Model of `RandomTestGenerator.getStartTime` — returns `_startTime`. -/
def rtgGetStartTime {C : Type} (st : RandomTestGeneratorState C) : ℕ :=
  st.startTime

/-- One iteration of the `while` loop in
`RandomTestGenerator.generateTests` (lines 61-79): generate a chromosome
`c`; for each still-uncovered goal (in order) that `c` covers, append `c`
to the test suite once; afterwards remove the covered goals from the
uncovered list.  Goals are their integer keys; `cov g c` models
`FitnessFunction(g).isCovered(c)`.  State: `(uncovered goals, suite)`. -/
def randomIteration (cov : ℕ → C → Bool) (c : C)
    (st : List ℕ × List C) : List ℕ × List C :=
  (st.1.filter (fun g => !(cov g c)),
   st.2 ++ (st.1.filter (fun g => cov g c)).map (fun _ => c))

/-- The `generateTests` loop run over the sequence `gens` of chromosomes
produced by the generator in the executed iterations (the stopping
condition only determines how many iterations run, i.e. the length of
`gens`). -/
def randomRun (cov : ℕ → C → Bool) : List C → List ℕ × List C → List ℕ × List C
  | [], st => st
  | c :: cs, st => randomRun cov cs (randomIteration cov c st)

/-- The test suite returned by `RandomTestGenerator.generateTests` for
goal keys `goals` and generated chromosomes `gens`. -/
def randomSuite (cov : ℕ → C → Bool) (goals : List ℕ) (gens : List C) : List C :=
  (randomRun cov gens (goals, [])).2

/-- The uncovered goals remaining after the `generateTests` loop. -/
def randomUncovered (cov : ℕ → C → Bool) (goals : List ℕ) (gens : List C) : List ℕ :=
  (randomRun cov gens (goals, [])).1

/-! ## `SinglePointRelativeCrossover` -/

/-- Modelled from the spec: the implementation file
`SinglePointRelativeCrossover.ts` is not part of the corpus (only its test
is).  Spec §4.2: "pick *relative* cut point `r ∈ (0,1)`; each parent is
cut at `floor(r · parentLength)`" and the tails are swapped, so offspring
one is the head of parent one followed by the tail of parent two, and vice
versa. -/
def singlePointRelativeCrossover {G : Type} (r : ℚ) (p1 p2 : List G) :
    List G × List G :=
  let c1 := Nat.floor (r * p1.length)
  let c2 := Nat.floor (r * p2.length)
  (p1.take c1 ++ p2.drop c2, p2.take c2 ++ p1.drop c1)

/-! ## The MOSA archive (`MOSA.updateArchive`, lines 224-239) -/

/-- The constant `Number.MAX_SAFE_INTEGER`. -/
def maxSafeInteger : ℕ := 2 ^ 53 - 1

variable {C : Type} [DecidableEq C]

/-- The initial `bestLength` for a goal: the stored chromosome's length if
the archive has an entry, otherwise `Number.MAX_SAFE_INTEGER`. -/
def entryLength (len : C → ℕ) : Option C → ℕ
  | none => maxSafeInteger
  | some c => len c

/-- The inner candidate loop of `updateArchive` for one fitness function:
fold state is `(bestLength, archive entry)`; a candidate replaces the
entry when it is optimal and strictly shorter than `bestLength`. -/
def considerCandidates (len : C → ℕ) (ff : FitnessFunction C)
    (chromosomes : List C) (st : ℕ × Option C) : ℕ × Option C :=
  chromosomes.foldl (fun acc cand =>
    if ff.isOptimal (ff.getFitness cand) = true ∧ len cand < acc.1
    then (len cand, some cand) else acc) st

/-- The effect of one iteration of the outer (fitness-function) loop of
`updateArchive` on one goal's archive entry. -/
def updateArchiveGoal (len : C → ℕ) (ff : FitnessFunction C)
    (chromosomes : List C) (entry : Option C) : Option C :=
  (considerCandidates len ff chromosomes (entryLength len entry, entry)).2

/-- Model of `MOSA.updateArchive`: iterate over the fitness-function map in
insertion order, updating each goal's entry in turn. -/
def updateArchive (len : C → ℕ) (chromosomes : List C) :
    List (ℕ × FitnessFunction C) → (ℕ → Option C) → (ℕ → Option C)
  | [], archive => archive
  | (k, ff) :: rest, archive =>
      updateArchive len chromosomes rest
        (Function.update archive k (updateArchiveGoal len ff chromosomes (archive k)))

/-- Archive states reachable during a MOSA run: `findSolution` clears the
archive at the start and afterwards modifies it only through
`updateArchive` (with the initial population, each offspring population
and each next parent population). -/
inductive ArchiveReachable (len : C → ℕ) (ffs : List (ℕ × FitnessFunction C)) :
    (ℕ → Option C) → Prop where
  | empty : ArchiveReachable len ffs (fun _ => none)
  | update (cs : List C) {a : ℕ → Option C} (h : ArchiveReachable len ffs a) :
      ArchiveReachable len ffs (updateArchive len cs ffs a)

/-- Recursive form of the candidate scan: the first optimal candidate
strictly shorter than the running bound that no later, strictly shorter
optimal candidate supersedes. -/
def bestCandidate (len : C → ℕ) (opt : C → Bool) : ℕ → List C → Option C
  | _, [] => none
  | b, c :: cs =>
    if opt c = true ∧ len c < b then
      some ((bestCandidate len opt (len c) cs).getD c)
    else bestCandidate len opt b cs

/-! ## MOSA dominance (`MOSA.dominates`, lines 334-350) -/

/-- The loop of `MOSA.dominates`: iterate the fitness functions in
insertion order, skipping goals with an archive entry; return `false` as
soon as some uncovered goal compares worse (`compareValue < 0`), record in
`flag` (`dominatesAtLeastOnce`) whether some uncovered goal compared
strictly better. -/
def dominatesAux (archive : ℕ → Option C) (c1 c2 : C) :
    List (ℕ × FitnessFunction C) → Bool → Bool
  | [], flag => flag
  | (k, ff) :: rest, flag =>
    if (archive k).isSome then dominatesAux archive c1 c2 rest flag
    else
      if ff.compare (ff.getFitness c1) (ff.getFitness c2) < 0 then false
      else if 0 < ff.compare (ff.getFitness c1) (ff.getFitness c2) then
        dominatesAux archive c1 c2 rest true
      else dominatesAux archive c1 c2 rest flag

/-- Model of `MOSA.dominates`. -/
def dominates (ffs : List (ℕ × FitnessFunction C)) (archive : ℕ → Option C)
    (c1 c2 : C) : Bool :=
  dominatesAux archive c1 c2 ffs false

/-- The `compare` contract of §4.3, first half: `compare` flips sign when
its arguments are swapped. -/
def CompareFlip (cmp : ℤ → ℤ → ℤ) : Prop :=
  ∀ x y, 0 < cmp x y ↔ cmp y x < 0

/-- The `compare` contract of §4.3, second half: the "no worse" relation
induced by `compare` is transitive (compare is a total order on values). -/
def CompareTrans (cmp : ℤ → ℤ → ℤ) : Prop :=
  ∀ x y z, 0 ≤ cmp x y → 0 ≤ cmp y z → 0 ≤ cmp x z

/-- Every fitness function of the map satisfies the `compare` contract. -/
def GoodCompares (ffs : List (ℕ × FitnessFunction C)) : Prop :=
  ∀ kff ∈ ffs, CompareFlip kff.2.compare ∧ CompareTrans kff.2.compare

/-! ## MOSA preference sorting and fast non-dominated sorting
(`MOSA.preferenceSorting` lines 247-280,
`MOSA.fastNonDominatedSorting` lines 288-325) -/

/-- The candidate test of the best-chromosome scan in
`preferenceSorting`: replace the current best when the candidate compares
strictly better, or ties and is strictly shorter. -/
def betterForGoal (len : C → ℕ) (ff : FitnessFunction C) (cand best : C) : Bool :=
  decide (0 < ff.compare (ff.getFitness cand) (ff.getFitness best) ∨
    (ff.compare (ff.getFitness cand) (ff.getFitness best) = 0 ∧ len cand < len best))

/-- The best-chromosome scan of `preferenceSorting` for one uncovered
goal: start from `chromosomes.get(0)` and fold over the remaining
candidates (`chromosomes.subList(1, size)`). -/
def selectBest (len : C → ℕ) (ff : FitnessFunction C) (c0 : C) (cr : List C) : C :=
  cr.foldl (fun best cand =>
    if betterForGoal len ff cand best = true then cand else best) c0

/-- The goal loop of `preferenceSorting`: for each goal with no archive
entry determine the best chromosome; add it to the best front unless
already present and remove it (first occurrence) from the list kept for
non-dominated sorting.  Returns `none` when the population is empty but an
uncovered goal exists (the TS code would fail on `chromosomes.get(0)`). -/
def bestFrontLoop (len : C → ℕ) (archive : ℕ → Option C) (R : List C) :
    List (ℕ × FitnessFunction C) → List C → List C → Option (List C × List C)
  | [], B, rest => some (B, rest)
  | (k, ff) :: goals, B, rest =>
    if (archive k).isSome then bestFrontLoop len archive R goals B rest
    else
      match R with
      | [] => none
      | c0 :: cr =>
        if selectBest len ff c0 cr ∈ B then bestFrontLoop len archive R goals B rest
        else bestFrontLoop len archive R goals (B ++ [selectBest len ff c0 cr])
          (rest.erase (selectBest len ff c0 cr))

/-- The initial domination count of `p`: the number of chromosomes of the
list (counted with multiplicity, i.e. per object occurrence) that dominate
`p`. -/
def dominationCounts (dom : C → C → Bool) (cs : List C) (p : C) : ℤ :=
  ((cs.filter (fun q => dom q p)).length : ℤ)

/-- The first front of `fastNonDominatedSorting`: every occurrence whose
domination count is zero, in list order. -/
def firstFrontOf (dom : C → C → Bool) (cs : List C) : List C :=
  cs.filter (fun p => decide ((cs.filter (fun q => dom q p)).length = 0))

/-- Inner loop of the front-peeling phase: for each `q` in
`dominatedValues.get(p)` decrement `q`'s domination count, and append `q`
to the next front exactly when the count reaches zero. -/
def decrementVictims (victims : List C) (st : (C → ℤ) × List C) :
    (C → ℤ) × List C :=
  victims.foldl (fun st2 q =>
    (Function.update st2.1 q (st2.1 q - 1),
     if st2.1 q - 1 = 0 then st2.2 ++ [q] else st2.2)) st

/-- Processing of one current front: iterate its members `p` in order,
decrementing the counts of the chromosomes `p` dominates
(`dominatedValues.get(p)` is `all.filter (dom p ·)`). -/
def processFront (dom : C → C → Bool) (all : List C) (front : List C)
    (counts : C → ℤ) : (C → ℤ) × List C :=
  front.foldl (fun st p => decrementVictims (all.filter (fun q => dom p q)) st)
    (counts, [])

/-- The `while (currentFront.size() > 0)` loop of
`fastNonDominatedSorting` with explicit fuel.  A chromosome's count
reaches zero at most once (counts only decrease), so at most
`all.length` rounds follow the first front and fuel `all.length + 1`
never runs out. -/
def peelFronts (dom : C → C → Bool) (all : List C) :
    ℕ → List C → (C → ℤ) → List (List C)
  | 0, _, _ => []
  | fuel + 1, current, counts =>
    if current.isEmpty then []
    else
      current :: peelFronts dom all fuel (processFront dom all current counts).2
        (processFront dom all current counts).1

/-- Model of `MOSA.fastNonDominatedSorting`. -/
def fastNonDominatedSorting (dom : C → C → Bool) (cs : List C) : List (List C) :=
  peelFronts dom cs (cs.length + 1) (firstFrontOf dom cs)
    (fun p => dominationCounts dom cs p)

/-- Model of `MOSA.preferenceSorting`: the best front (if non-empty), followed
either by the not-yet-chosen chromosomes as one unsorted front (when the
best front exceeds the population size) or by their fast non-dominated
sorting. -/
def preferenceSorting (len : C → ℕ) (ffs : List (ℕ × FitnessFunction C))
    (archive : ℕ → Option C) (N : ℕ) (chromosomes : List C) :
    Option (List (List C)) :=
  match bestFrontLoop len archive chromosomes ffs [] chromosomes with
  | none => none
  | some (B, rest) =>
    some ((if 0 < B.length then [B] else []) ++
      (if N < B.length then [rest]
       else fastNonDominatedSorting (dominates ffs archive) rest))

/-- The front-filling loop of `MOSA.findSolution` (lines 150-159): add
whole fronts while they fit, then a prefix (`subList`) of the next front
to reach exactly the population size, and stop. -/
def fillPopulation (N : ℕ) : List (List C) → List C → List C
  | [], acc => acc
  | front :: rest, acc =>
    if acc.length + front.length ≤ N then fillPopulation N rest (acc ++ front)
    else acc ++ front.take (N - acc.length)

/-- One parent-population replacement step of `MOSA.findSolution` (lines
144-159): sort the union of parents and offspring by preference, reorder
each front (`subVectorDominanceSorting` shuffles and then sorts a front in
place — it permutes the front, abstracted here as `sortFront`), and fill
the next parent population front by front. -/
def mosaNextPopulation (len : C → ℕ) (ffs : List (ℕ × FitnessFunction C))
    (archive : ℕ → Option C) (N : ℕ) (sortFront : List C → List C)
    (parents offspring : List C) : Option (List C) :=
  match preferenceSorting len ffs archive N (parents ++ offspring) with
  | none => none
  | some fronts => some (fillPopulation N (fronts.map sortFront) [])

/-- The `Prop` counterpart of `betterForGoal`: for the claim's phrasing of
preference sorting, `cand` is strictly preferable to `best` for a goal
when its fitness compares strictly better, or ties with a strictly
shorter length. -/
def StrictlyBetter (len : C → ℕ) (ff : FitnessFunction C) (cand best : C) : Prop :=
  0 < ff.compare (ff.getFitness cand) (ff.getFitness best) ∨
    (ff.compare (ff.getFitness cand) (ff.getFitness best) = 0 ∧ len cand < len best)

/-- The claim's description of the per-goal winner of preference sorting:
`b` occurs in `R`, no chromosome of `R` is strictly preferable to `b`
(best fitness, ties broken by shorter length), and `b` is strictly
preferable to everything before it (further ties broken by earliest
position). -/
def IsGoalBest (len : C → ℕ) (ff : FitnessFunction C) (R : List C) (b : C) : Prop :=
  ∃ l1 l2, R = l1 ++ b :: l2 ∧
    (∀ c ∈ R, ¬ StrictlyBetter len ff c b) ∧
    (∀ c ∈ l1, StrictlyBetter len ff b c)

/-- A concrete fitness function on `ℕ`-chromosomes for witnesses: the
fitness is the chromosome's value, optimal iff at least `5`. -/
def ffAtLeast5 : FitnessFunction ℕ :=
  ⟨fun c => (c : ℤ), fun q => decide (5 ≤ q), fun a b => a - b, fun _ => false⟩

/-- A concrete fitness function on `ℕ`-chromosomes for witnesses: the
fitness is the chromosome's value, optimal iff at least `7`. -/
def ffAtLeast7 : FitnessFunction ℕ :=
  ⟨fun c => (c : ℤ), fun q => decide (7 ≤ q), fun a b => a - b, fun _ => false⟩

/-- A concrete fitness function on `ℕ`-chromosomes: fitness `100` for
chromosome `0`, `10` for `1`, `5` for `2`, `1` otherwise; never optimal. -/
def ffStepped : FitnessFunction ℕ :=
  ⟨fun c => if c = 0 then 100 else if c = 1 then 10 else if c = 2 then 5 else 1,
   fun _ => false, fun a b => a - b, fun _ => false⟩

/-- A constant fitness function on `ℕ`-chromosomes; never optimal. -/
def ffConstant : FitnessFunction ℕ :=
  ⟨fun _ => 0, fun _ => false, fun a b => a - b, fun _ => false⟩

/-- Four coverage goals (one stepped, three constant), all permanently
uncovered (nothing is optimal, so the archive stays empty). -/
def ffsStepped : List (ℕ × FitnessFunction ℕ) :=
  [(0, ffStepped), (1, ffConstant), (2, ffConstant), (3, ffConstant)]

end Whisker

/-! # Theorems for the configuration and `RandomTestGenerator` claims -/

namespace Whisker

/-- C8: the claim says `getAlgorithm` maps all five of `random`,
`one-plus-one`, `simplega`, `mosa`, `mio` to a defined
`SearchAlgorithmType` member and raises for every other value.  In the
code, four of the five do map to defined members and unknown values raise
`IllegalArgumentException`, but `'simplega'` returns
`SearchAlgorithmType.SIMPLEGA`, a member the enum does not declare
(`undefined` at runtime): the code contradicts its own enum declaration. -/
theorem getAlgorithm_simplega_bug :
    getAlgorithm "random" = .ok .RANDOM ∧
    getAlgorithm "one-plus-one" = .ok .ONE_PLUS_ONE ∧
    getAlgorithm "mosa" = .ok .MOSA ∧
    getAlgorithm "mio" = .ok .MIO_ALG ∧
    getAlgorithm "simplega" = .undefinedMember ∧
    getAlgorithm "gibberish" = .illegalArgument := by
  refine ⟨rfl, rfl, rfl, rfl, rfl, ?_⟩
  decide

/-- C9: unrecognized values of `mutation.operator`, `crossover.operator`,
`selection.operator`, `chromosome` and `fitness-function.type` raise no
error; each switch silently falls back to its default
(`IntegerListMutation`, `SinglePointCrossover`, `RankSelection`, the test
chromosome generator, the single-bit fitness type).  The five
configuration functions are total — there is no error branch to reach. -/
theorem config_silent_fallbacks (s : String)
    (hm1 : s ≠ "bitflip") (hm2 : s ≠ "variablelength")
    (hc1 : s ≠ "singlepointrelative")
    (hs1 : s ≠ "tournament")
    (hg1 : s ≠ "bitstring") (hg2 : s ≠ "integerlist")
    (hg3 : s ≠ "variablelengthtest")
    (hf1 : s ≠ "statement") (hf2 : s ≠ "one-max") :
    getMutationOperator s = .integerListMutation ∧
    getCrossoverOperator s = .singlePointCrossoverOp ∧
    getSelectionOperator s = .rankSelection ∧
    getChromosomeGenerator s = .testGenerator ∧
    getFitnessFunctionType s = .SINGLE_BIT := by
  refine ⟨?_, ?_, ?_, ?_, ?_⟩
  · unfold getMutationOperator
    split
    · simp_all
    · simp_all
    · rfl
  · unfold getCrossoverOperator
    split
    · simp_all
    · rfl
  · unfold getSelectionOperator
    split
    · simp_all
    · rfl
  · unfold getChromosomeGenerator
    split
    · simp_all
    · simp_all
    · simp_all
    · rfl
  · unfold getFitnessFunctionType
    split
    · simp_all
    · simp_all
    · rfl

/-- Witness for C9 at the concrete unrecognized operator name `"foo"`. -/
theorem config_silent_fallbacks_witness :
    getMutationOperator "foo" = .integerListMutation ∧
    getCrossoverOperator "foo" = .singlePointCrossoverOp ∧
    getSelectionOperator "foo" = .rankSelection ∧
    getChromosomeGenerator "foo" = .testGenerator ∧
    getFitnessFunctionType "foo" = .SINGLE_BIT :=
  config_silent_fallbacks "foo" (by decide) (by decide) (by decide)
    (by decide) (by decide) (by decide) (by decide) (by decide) (by decide)

/-- C10: `RandomTestGenerator` implements `SearchAlgorithm`, yet
`findSolution` and all six setters unconditionally throw
`NotSupportedFunctionException` for every input, while the observables
`getNumberOfIterations`, `getCurrentSolution` and `getStartTime` return
the corresponding state fields (and `generateTests`, modelled by
`randomSuite`, is the only test-producing entry point). -/
theorem randomTestGenerator_unsupported_setters (C G P S : Type)
    (g : G) (ff : FitnessFunction C) (ffs : List (ℕ × FitnessFunction C))
    (hs : List (ℕ × (ℤ → ℚ))) (props : P) (sel : S)
    (st : RandomTestGeneratorState C) :
    rtgFindSolution C = .error .notSupportedFunction ∧
    rtgSetChromosomeGenerator g = .error .notSupportedFunction ∧
    rtgSetFitnessFunction ff = .error .notSupportedFunction ∧
    rtgSetFitnessFunctions ffs = .error .notSupportedFunction ∧
    rtgSetHeuristicFunctions hs = .error .notSupportedFunction ∧
    rtgSetProperties props = .error .notSupportedFunction ∧
    rtgSetSelectionOperator sel = .error .notSupportedFunction ∧
    rtgGetNumberOfIterations st = st.iterations ∧
    rtgGetCurrentSolution st = st.tests ∧
    rtgGetStartTime st = st.startTime :=
  ⟨rfl, rfl, rfl, rfl, rfl, rfl, rfl, rfl, rfl, rfl⟩

/-- Witness for C10 at concrete inputs. -/
theorem randomTestGenerator_unsupported_setters_witness :
    rtgFindSolution ℕ = .error .notSupportedFunction ∧
    rtgSetChromosomeGenerator (0 : ℕ) = .error .notSupportedFunction ∧
    rtgGetNumberOfIterations ⟨3, ([] : List ℕ), 7⟩ = 3 :=
  ⟨(randomTestGenerator_unsupported_setters ℕ ℕ ℕ ℕ 0
      ⟨fun _ => 0, fun _ => true, fun _ _ => 0, fun _ => true⟩ [] [] 0 0
      ⟨3, [], 7⟩).1,
   (randomTestGenerator_unsupported_setters ℕ ℕ ℕ ℕ 0
      ⟨fun _ => 0, fun _ => true, fun _ _ => 0, fun _ => true⟩ [] [] 0 0
      ⟨3, [], 7⟩).2.1,
   (randomTestGenerator_unsupported_setters ℕ ℕ ℕ ℕ 0
      ⟨fun _ => 0, fun _ => true, fun _ _ => 0, fun _ => true⟩ [] [] 0 0
      ⟨3, [], 7⟩).2.2.2.2.2.2.2.1⟩

/-! # Random search (`RandomTestGenerator.generateTests`) -/

/-- Invariant of the `generateTests` loop, carried through `randomRun`:
`pairs` tags each suite entry with the goal for which it was added. -/
theorem randomRun_tagged {C : Type} [DecidableEq C] (cov : ℕ → C → Bool)
    (goals : List ℕ) :
    ∀ (gens : List C) (u : List ℕ) (s : List C) (pairs : List (ℕ × C)),
    u.Nodup →
    (∀ g ∈ u, g ∈ goals) →
    pairs.map Prod.snd = s →
    (pairs.map Prod.fst).Nodup →
    (∀ p ∈ pairs, p.1 ∈ goals ∧ cov p.1 p.2 = true) →
    pairs.Pairwise (fun p q => q.2 ≠ p.2 → cov q.1 p.2 = false) →
    (∀ g ∈ u, ∀ p ∈ pairs, cov g p.2 = false) →
    (∀ g ∈ u, g ∉ pairs.map Prod.fst) →
    ∃ pairs2 : List (ℕ × C),
      pairs2.map Prod.snd = (randomRun cov gens (u, s)).2 ∧
      (pairs2.map Prod.fst).Nodup ∧
      (∀ p ∈ pairs2, p.1 ∈ goals ∧ cov p.1 p.2 = true) ∧
      pairs2.Pairwise (fun p q => q.2 ≠ p.2 → cov q.1 p.2 = false) ∧
      (randomRun cov gens (u, s)).2.length + (randomRun cov gens (u, s)).1.length
        = s.length + u.length := by
  intro gens
  induction gens with
  | nil =>
    intro u s pairs hund hug hsnd hfnd hmem hpw _ _
    exact ⟨pairs, hsnd, hfnd, hmem, hpw, by simp [randomRun]⟩
  | cons c cs ih =>
    intro u s pairs hund hug hsnd hfnd hmem hpw hunc hdisj
    have hrun : randomRun cov (c :: cs) (u, s)
        = randomRun cov cs (randomIteration cov c (u, s)) := rfl
    rw [hrun]
    have hpart : u.length = (u.filter (fun g => cov g c)).length
        + (u.filter (fun g => !(cov g c))).length :=
      List.length_eq_length_filter_add _
    have hcovnd : (u.filter (fun g => cov g c)).Nodup := hund.filter _
    obtain ⟨pairs2, h1, h2, h3, h4, h5⟩ :=
      ih (u.filter (fun g => !(cov g c)))
        (s ++ (u.filter (fun g => cov g c)).map (fun _ => c))
        (pairs ++ (u.filter (fun g => cov g c)).map (fun g => (g, c)))
        (hund.filter _)
        (fun g hg => hug g (List.mem_of_mem_filter hg))
        (by
          simp only [List.map_append, List.map_map]
          rw [hsnd]
          rfl)
        (by
          simp only [List.map_append, List.map_map]
          have : (Prod.fst ∘ fun g => ((g, c) : ℕ × C)) = id := rfl
          rw [this, List.map_id]
          rw [List.nodup_append]
          refine ⟨hfnd, hcovnd, ?_⟩
          intro a ha hb
          exact hdisj a (List.mem_of_mem_filter hb) ha)
        (by
          intro p hp
          rcases List.mem_append.mp hp with hp | hp
          · exact hmem p hp
          · obtain ⟨g, hg, rfl⟩ := List.mem_map.mp hp
            exact ⟨hug g (List.mem_of_mem_filter hg), (List.mem_filter.mp hg).2⟩)
        (by
          rw [List.pairwise_append]
          refine ⟨hpw, ?_, ?_⟩
          · rw [List.pairwise_map]
            have hnd2 := hcovnd
            exact hnd2.imp (fun _ hne => absurd rfl hne)
          · intro p hp q hq _
            obtain ⟨g, hg, rfl⟩ := List.mem_map.mp hq
            exact hunc g (List.mem_of_mem_filter hg) p hp)
        (by
          intro g hg p hp
          rcases List.mem_append.mp hp with hp | hp
          · exact hunc g (List.mem_of_mem_filter hg) p hp
          · obtain ⟨g2, _, rfl⟩ := List.mem_map.mp hp
            have := (List.mem_filter.mp hg).2
            simpa using this)
        (by
          intro g hg
          simp only [List.map_append, List.map_map]
          rw [List.mem_append]
          push_neg
          constructor
          · exact hdisj g (List.mem_of_mem_filter hg)
          · intro hmem2
            have heq : (Prod.fst ∘ fun g => ((g, c) : ℕ × C)) = id := rfl
            rw [heq, List.map_id] at hmem2
            have hg1 := (List.mem_filter.mp hg).2
            have hg2 := (List.mem_filter.mp hmem2).2
            simp only [Bool.not_eq_true'] at hg1
            rw [hg1] at hg2
            exact absurd hg2 (by decide))
    refine ⟨pairs2, h1, h2, h3, h4, ?_⟩
    have hstep : randomIteration cov c (u, s)
        = (u.filter (fun g => !(cov g c)),
           s ++ (u.filter (fun g => cov g c)).map (fun _ => c)) := rfl
    rw [hstep, h5]
    simp only [List.length_append, List.length_map]
    omega

/-- C7 (amended): the suite returned by random search has exactly one
entry per newly covered goal — entries can be tagged by pairwise-distinct
goals, each entry covering its goal — so the suite size plus the number of
goals left uncovered equals the number of goals (in particular the suite
never exceeds the goal count), and each returned test covers at least one
goal that no earlier test *of a different chromosome* covers.  (The
original claim's "no duplicate tests" fails: a chromosome covering several
still-uncovered goals in one iteration is added once per goal.) -/
theorem random_suite_one_per_goal {C : Type} [DecidableEq C]
    (cov : ℕ → C → Bool) (goals : List ℕ) (gens : List C)
    (hnd : goals.Nodup) :
    (randomSuite cov goals gens).length + (randomUncovered cov goals gens).length
        = goals.length ∧
    (randomSuite cov goals gens).length ≤ goals.length ∧
    ∃ pairs : List (ℕ × C),
      pairs.map Prod.snd = randomSuite cov goals gens ∧
      (pairs.map Prod.fst).Nodup ∧
      (∀ p ∈ pairs, p.1 ∈ goals ∧ cov p.1 p.2 = true) ∧
      pairs.Pairwise (fun p q => q.2 ≠ p.2 → cov q.1 p.2 = false) := by
  obtain ⟨pairs2, h1, h2, h3, h4, h5⟩ :=
    randomRun_tagged cov goals gens goals [] [] hnd (fun g hg => hg) rfl
      (by simp) (by simp) (by simp) (by simp) (by simp)
  have h5s : (randomSuite cov goals gens).length
      + (randomUncovered cov goals gens).length = goals.length := by
    unfold randomSuite randomUncovered
    simpa using h5
  exact ⟨h5s, by omega, pairs2, h1, h2, h3, h4⟩

/-- Witness for C7 (amended) on a concrete run: goals `0, 1, 2`, where
chromosome `7` covers goals `0` and `1` and chromosome `9` covers goal
`2`: the suite is `[7, 7, 9]` and no longer than the goal list. -/
theorem random_suite_one_per_goal_witness :
    ([0, 1, 2] : List ℕ).Nodup ∧
    randomSuite (fun g c => decide ((c = 7 ∧ (g = 0 ∨ g = 1)) ∨ (c = 9 ∧ g = 2)))
      [0, 1, 2] [7, 9] = [7, 7, 9] ∧
    ((randomSuite (fun g c => decide ((c = 7 ∧ (g = 0 ∨ g = 1)) ∨ (c = 9 ∧ g = 2)))
        [0, 1, 2] [7, 9]).length ≤ ([0, 1, 2] : List ℕ).length) := by
  refine ⟨by decide, by decide, ?_⟩
  exact (random_suite_one_per_goal
    (fun g c => decide ((c = 7 ∧ (g = 0 ∨ g = 1)) ∨ (c = 9 ∧ g = 2))) [0, 1, 2] [7, 9]
    (by decide)).2.1

/-- C7 counterexample: the claim as stated asserts the returned suite has
no duplicate tests and that every returned test covers a goal not covered
by *any* earlier test in the suite.  With two goals both covered by the
single generated chromosome `7`, `generateTests` appends that chromosome
once per goal: the suite is `[7, 7]` — a duplicate — and the second entry
covers no goal the first (identical) entry does not cover. -/
theorem random_suite_duplicates_counterexample :
    randomSuite (fun _ _ => true) [0, 1] ([7] : List ℕ) = [7, 7] ∧
    ¬ (randomSuite (fun _ _ => true) [0, 1] ([7] : List ℕ)).Nodup := by
  exact ⟨by decide, by decide⟩

/-! # Helper lemmas for `SinglePointRelativeCrossover` -/

theorem floor_mul_le_self {r : ℚ} (h1 : r ≤ 1) (n : ℕ) :
    Nat.floor (r * n) ≤ n := by
  calc Nat.floor (r * (n : ℚ)) ≤ Nat.floor ((n : ℚ)) := by
        apply Nat.floor_le_floor
        calc r * (n : ℚ) ≤ 1 * (n : ℚ) :=
              mul_le_mul_of_nonneg_right h1 (by positivity)
          _ = (n : ℚ) := one_mul _
    _ = n := Nat.floor_natCast n

theorem floor_mul_mono {r : ℚ} (h0 : 0 ≤ r) {n1 n2 : ℕ} (h : n1 ≤ n2) :
    Nat.floor (r * n1) ≤ Nat.floor (r * n2) := by
  apply Nat.floor_le_floor
  exact mul_le_mul_of_nonneg_left (by exact_mod_cast h) h0

theorem floor_mul_sub_le {r : ℚ} (h0 : 0 ≤ r) (h1 : r ≤ 1) {n1 n2 : ℕ}
    (h : n1 ≤ n2) :
    Nat.floor (r * n2) ≤ Nat.floor (r * n1) + (n2 - n1) := by
  have hcast : (n2 : ℚ) = (n1 : ℚ) + ((n2 - n1 : ℕ) : ℚ) := by
    push_cast [Nat.cast_sub h]
    ring
  calc Nat.floor (r * n2) = Nat.floor (r * n1 + r * ((n2 - n1 : ℕ) : ℚ)) := by
        rw [hcast, mul_add]
    _ ≤ Nat.floor (r * n1 + ((n2 - n1 : ℕ) : ℚ)) := by
        apply Nat.floor_le_floor
        have : r * ((n2 - n1 : ℕ) : ℚ) ≤ ((n2 - n1 : ℕ) : ℚ) := by
          calc r * ((n2 - n1 : ℕ) : ℚ) ≤ 1 * ((n2 - n1 : ℕ) : ℚ) :=
                mul_le_mul_of_nonneg_right h1 (by positivity)
            _ = _ := one_mul _
        linarith
    _ = Nat.floor (r * n1) + (n2 - n1) := by
        rw [Nat.floor_add_nat (by positivity)]

/-- C6: `SinglePointRelativeCrossover` conservation: for a relative cut
point `r ∈ (0,1)`, the offspring lengths sum to the parents' lengths, no
offspring is longer than the longer parent, and the multiset of genes is
preserved.  (Spec-modelled: the operator's source file is absent from the
corpus; the definition follows spec §4.2.) -/
theorem singlePointRelativeCrossover_conservation {G : Type} (r : ℚ)
    (p1 p2 : List G) (h0 : 0 < r) (h1 : r < 1) :
    (singlePointRelativeCrossover r p1 p2).1.length
        + (singlePointRelativeCrossover r p1 p2).2.length
      = p1.length + p2.length ∧
    (singlePointRelativeCrossover r p1 p2).1.length ≤ max p1.length p2.length ∧
    (singlePointRelativeCrossover r p1 p2).2.length ≤ max p1.length p2.length ∧
    ((singlePointRelativeCrossover r p1 p2).1 : Multiset G)
        + ((singlePointRelativeCrossover r p1 p2).2 : Multiset G)
      = (p1 : Multiset G) + (p2 : Multiset G) := by
  have hc1le : Nat.floor (r * p1.length) ≤ p1.length := floor_mul_le_self h1.le _
  have hc2le : Nat.floor (r * p2.length) ≤ p2.length := floor_mul_le_self h1.le _
  have hfst : (singlePointRelativeCrossover r p1 p2).1
      = p1.take (Nat.floor (r * p1.length)) ++ p2.drop (Nat.floor (r * p2.length)) := rfl
  have hsnd : (singlePointRelativeCrossover r p1 p2).2
      = p2.take (Nat.floor (r * p2.length)) ++ p1.drop (Nat.floor (r * p1.length)) := rfl
  have hlen1 : (singlePointRelativeCrossover r p1 p2).1.length
      = Nat.floor (r * p1.length) + (p2.length - Nat.floor (r * p2.length)) := by
    rw [hfst, List.length_append, List.length_take, List.length_drop]
    omega
  have hlen2 : (singlePointRelativeCrossover r p1 p2).2.length
      = Nat.floor (r * p2.length) + (p1.length - Nat.floor (r * p1.length)) := by
    rw [hsnd, List.length_append, List.length_take, List.length_drop]
    omega
  refine ⟨by rw [hlen1, hlen2]; omega, ?_, ?_, ?_⟩
  · rw [hlen1]
    rcases le_total p1.length p2.length with hle | hle
    · have hmono : Nat.floor (r * p1.length) ≤ Nat.floor (r * p2.length) :=
        floor_mul_mono h0.le hle
      omega
    · have hbd : Nat.floor (r * p1.length)
          ≤ Nat.floor (r * p2.length) + (p1.length - p2.length) :=
        floor_mul_sub_le h0.le h1.le hle
      omega
  · rw [hlen2]
    rcases le_total p2.length p1.length with hle | hle
    · have hmono : Nat.floor (r * p2.length) ≤ Nat.floor (r * p1.length) :=
        floor_mul_mono h0.le hle
      omega
    · have hbd : Nat.floor (r * p2.length)
          ≤ Nat.floor (r * p1.length) + (p2.length - p1.length) :=
        floor_mul_sub_le h0.le h1.le hle
      omega
  · rw [hfst, hsnd, ← Multiset.coe_add, ← Multiset.coe_add]
    have e1 : ((p1.take (Nat.floor (r * p1.length)) : List G) : Multiset G)
          + ((p1.drop (Nat.floor (r * p1.length)) : List G) : Multiset G)
        = (p1 : Multiset G) := by
      rw [Multiset.coe_add, List.take_append_drop]
    have e2 : ((p2.take (Nat.floor (r * p2.length)) : List G) : Multiset G)
          + ((p2.drop (Nat.floor (r * p2.length)) : List G) : Multiset G)
        = (p2 : Multiset G) := by
      rw [Multiset.coe_add, List.take_append_drop]
    rw [← e1, ← e2]
    abel

/-! # Helper lemmas for the MOSA archive -/

variable {C : Type} [DecidableEq C]

theorem considerCandidates_eq (len : C → ℕ) (ff : FitnessFunction C)
    (cs : List C) : ∀ (b : ℕ) (e : Option C),
    considerCandidates len ff cs (b, e)
      = match bestCandidate len (fun c => ff.isOptimal (ff.getFitness c)) b cs with
        | none => (b, e)
        | some c => (len c, some c) := by
  induction cs with
  | nil => intro b e; rfl
  | cons c cs ih =>
    intro b e
    by_cases hP : ff.isOptimal (ff.getFitness c) = true ∧ len c < b
    · have hstep : considerCandidates len ff (c :: cs) (b, e)
          = considerCandidates len ff cs (len c, some c) := by
        simp only [considerCandidates, List.foldl_cons, if_pos hP]
      rw [hstep, ih (len c) (some c)]
      rw [show bestCandidate len (fun x => ff.isOptimal (ff.getFitness x)) b (c :: cs)
          = some ((bestCandidate len (fun x => ff.isOptimal (ff.getFitness x))
              (len c) cs).getD c) from by rw [bestCandidate, if_pos hP]]
      cases bestCandidate len (fun x => ff.isOptimal (ff.getFitness x)) (len c) cs with
      | none => rfl
      | some c2 => rfl
    · have hstep : considerCandidates len ff (c :: cs) (b, e)
          = considerCandidates len ff cs (b, e) := by
        simp only [considerCandidates, List.foldl_cons, if_neg hP]
      rw [hstep, ih b e]
      rw [show bestCandidate len (fun x => ff.isOptimal (ff.getFitness x)) b (c :: cs)
          = bestCandidate len (fun x => ff.isOptimal (ff.getFitness x)) b cs from by
        rw [bestCandidate, if_neg hP]]

theorem bestCandidate_none (len : C → ℕ) (opt : C → Bool) :
    ∀ (cs : List C) (b : ℕ), bestCandidate len opt b cs = none →
    ∀ c ∈ cs, opt c = true → b ≤ len c := by
  intro cs
  induction cs with
  | nil => intro b _ c hc; simp at hc
  | cons c0 cs ih =>
    intro b h c hc hopt
    by_cases hP : opt c0 = true ∧ len c0 < b
    · rw [bestCandidate, if_pos hP] at h
      exact absurd h (by simp)
    · rw [bestCandidate, if_neg hP] at h
      rcases List.mem_cons.mp hc with rfl | hc
      · by_contra hlt
        exact hP ⟨hopt, by omega⟩
      · exact ih b h c hc hopt

theorem bestCandidate_some (len : C → ℕ) (opt : C → Bool) :
    ∀ (cs : List C) (b : ℕ) (c : C), bestCandidate len opt b cs = some c →
    ∃ l1 l2, cs = l1 ++ c :: l2 ∧ opt c = true ∧ len c < b ∧
      (∀ x ∈ l1, opt x = true → len c < len x) ∧
      (∀ x ∈ l2, opt x = true → len c ≤ len x) := by
  intro cs
  induction cs with
  | nil => intro b c h; exact absurd h (by rw [bestCandidate]; simp)
  | cons c0 cs ih =>
    intro b c h
    by_cases hP : opt c0 = true ∧ len c0 < b
    · rw [bestCandidate, if_pos hP] at h
      cases hinner : bestCandidate len opt (len c0) cs with
      | none =>
        rw [hinner] at h
        simp only [Option.getD_none, Option.some.injEq] at h
        subst h
        exact ⟨[], cs, rfl, hP.1, hP.2, by simp,
          fun x hx hox => bestCandidate_none len opt cs (len c0) hinner x hx hox⟩
      | some c2 =>
        rw [hinner] at h
        simp only [Option.getD_some, Option.some.injEq] at h
        subst h
        obtain ⟨l1, l2, heq, hoptc, hlt, hl1, hl2⟩ := ih (len c0) c2 hinner
        refine ⟨c0 :: l1, l2, by rw [heq]; rfl, hoptc, by omega, ?_, hl2⟩
        intro x hx hox
        rcases List.mem_cons.mp hx with rfl | hx
        · exact hlt
        · exact hl1 x hx hox
    · rw [bestCandidate, if_neg hP] at h
      obtain ⟨l1, l2, heq, hoptc, hlt, hl1, hl2⟩ := ih b c h
      refine ⟨c0 :: l1, l2, by rw [heq]; rfl, hoptc, hlt, ?_, hl2⟩
      intro x hx hox
      rcases List.mem_cons.mp hx with rfl | hx
      · have : b ≤ len x := by
          by_contra hlt2
          exact hP ⟨hox, by omega⟩
        omega
      · exact hl1 x hx hox

theorem updateArchiveGoal_eq (len : C → ℕ) (ff : FitnessFunction C)
    (cs : List C) (e : Option C) :
    updateArchiveGoal len ff cs e
      = match bestCandidate len (fun c => ff.isOptimal (ff.getFitness c))
          (entryLength len e) cs with
        | none => e
        | some c => some c := by
  unfold updateArchiveGoal
  rw [considerCandidates_eq]
  cases bestCandidate len (fun c => ff.isOptimal (ff.getFitness c))
      (entryLength len e) cs with
  | none => rfl
  | some c => rfl

theorem updateArchiveGoal_optimal (len : C → ℕ) (ff : FitnessFunction C)
    (cs : List C) (e : Option C) (c : C)
    (h : updateArchiveGoal len ff cs e = some c) :
    e = some c ∨ ff.isOptimal (ff.getFitness c) = true := by
  rw [updateArchiveGoal_eq] at h
  cases hbc : bestCandidate len (fun x => ff.isOptimal (ff.getFitness x))
      (entryLength len e) cs with
  | none => rw [hbc] at h; exact Or.inl h
  | some c2 =>
    rw [hbc] at h
    have hc : c2 = c := by simpa using h
    subst hc
    obtain ⟨_, _, _, hopt, _, _, _⟩ := bestCandidate_some len _ cs _ c2 hbc
    exact Or.inr hopt

theorem updateArchive_not_key (len : C → ℕ) (cs : List C) :
    ∀ (l : List (ℕ × FitnessFunction C)) (a : ℕ → Option C) (k : ℕ),
    k ∉ l.map Prod.fst → updateArchive len cs l a k = a k := by
  intro l
  induction l with
  | nil => intro a k _; rfl
  | cons kff rest ih =>
    intro a k hk
    obtain ⟨k0, ff0⟩ := kff
    simp only [List.map_cons, List.mem_cons] at hk
    push_neg at hk
    show updateArchive len cs rest _ k = a k
    rw [ih _ k hk.2, Function.update_apply, if_neg hk.1]

theorem updateArchive_invariant (len : C → ℕ) (cs : List C) :
    ∀ (l : List (ℕ × FitnessFunction C)) (a : ℕ → Option C),
    (l.map Prod.fst).Nodup →
    (∀ k ff c, (k, ff) ∈ l → a k = some c →
      ff.isOptimal (ff.getFitness c) = true) →
    ∀ k ff c, (k, ff) ∈ l → updateArchive len cs l a k = some c →
      ff.isOptimal (ff.getFitness c) = true := by
  intro l
  induction l with
  | nil => intro a _ _ k ff c hmem; simp at hmem
  | cons kff rest ih =>
    intro a hnd hinv k ff c hmem hres
    obtain ⟨k0, ff0⟩ := kff
    simp only [List.map_cons, List.nodup_cons] at hnd
    have hinv2 : ∀ k ff c, (k, ff) ∈ rest →
        Function.update a k0 (updateArchiveGoal len ff0 cs (a k0)) k = some c →
        ff.isOptimal (ff.getFitness c) = true := by
      intro k ff c hm hr
      have hkne : k ≠ k0 := by
        rintro rfl
        exact hnd.1 (List.mem_map.mpr ⟨(k, ff), hm, rfl⟩)
      rw [Function.update_apply, if_neg hkne] at hr
      exact hinv k ff c (List.mem_cons_of_mem _ hm) hr
    rcases List.mem_cons.mp hmem with heq | hm
    · have hk : k = k0 := congrArg Prod.fst heq
      have hf : ff = ff0 := congrArg Prod.snd heq
      subst hk
      subst hf
      have hres2 : updateArchive len cs ((k, ff) :: rest) a k
          = updateArchiveGoal len ff cs (a k) := by
        show updateArchive len cs rest _ k = _
        rw [updateArchive_not_key len cs rest _ k hnd.1, Function.update_same]
      rw [hres2] at hres
      rcases updateArchiveGoal_optimal len ff cs (a k) c hres with hold | hopt
      · exact hinv k ff c hmem hold
      · exact hopt
    · exact ih _ hnd.2 hinv2 k ff c hm hres

/-- C1: archive invariant.  Starting from the empty archive, every archive
state reachable through calls of `MOSA.updateArchive` (which is the only
way `findSolution` adds entries) stores, for every goal key present, a
chromosome that is optimal for that goal's fitness function:
`updateArchive` never stores a non-optimal chromosome. -/
theorem mosa_archive_invariant (len : C → ℕ)
    (ffs : List (ℕ × FitnessFunction C)) (a : ℕ → Option C)
    (hkeys : (ffs.map Prod.fst).Nodup)
    (ha : ArchiveReachable len ffs a) :
    ∀ k ff c, (k, ff) ∈ ffs → a k = some c →
      ff.isOptimal (ff.getFitness c) = true := by
  induction ha with
  | empty => intro k ff c _ h; exact absurd h (by simp)
  | update cs h ih => exact updateArchive_invariant len cs ffs _ hkeys ih

/-- Witness for C1: two goals (optimal iff fitness at least `5`,
respectively `7`), one `updateArchive` call with chromosomes `6, 5` of
length `1`; the reachable archive maps goal `0` to `6` (and keeps goal `1`
empty) and satisfies the invariant. -/
theorem mosa_archive_invariant_witness :
    (([(0, ffAtLeast5), (1, ffAtLeast7)].map Prod.fst).Nodup) ∧
    (updateArchive (fun _ => 1) [6, 5] [(0, ffAtLeast5), (1, ffAtLeast7)]
      (fun _ => none)) 0 = some 6 ∧
    ∀ k ff c, (k, ff) ∈ [(0, ffAtLeast5), (1, ffAtLeast7)] →
      (updateArchive (fun _ => 1) [6, 5] [(0, ffAtLeast5), (1, ffAtLeast7)]
        (fun _ => none)) k = some c →
      ff.isOptimal (ff.getFitness c) = true :=
  ⟨by decide, by decide,
   mosa_archive_invariant (fun _ => 1) _ _ (by decide)
     (ArchiveReachable.update [6, 5] ArchiveReachable.empty)⟩

/-- C2: archive replacement policy for one goal.  Either the entry is kept
and every optimal candidate is at least as long as the current entry (with
`Number.MAX_SAFE_INTEGER` standing in when there is no entry), or the
entry is replaced by an optimal candidate strictly shorter than the
current entry that is strictly shorter than every earlier optimal
candidate and no longer than every later one — i.e. the earliest
candidate of minimal length among the optimal ones is retained. -/
theorem mosa_archive_replacement (len : C → ℕ) (ff : FitnessFunction C)
    (cs : List C) (e : Option C) :
    (updateArchiveGoal len ff cs e = e ∧
      ∀ c ∈ cs, ff.isOptimal (ff.getFitness c) = true →
        entryLength len e ≤ len c) ∨
    (∃ c l1 l2, updateArchiveGoal len ff cs e = some c ∧
      cs = l1 ++ c :: l2 ∧
      ff.isOptimal (ff.getFitness c) = true ∧
      len c < entryLength len e ∧
      (∀ x ∈ l1, ff.isOptimal (ff.getFitness x) = true → len c < len x) ∧
      (∀ x ∈ l2, ff.isOptimal (ff.getFitness x) = true → len c ≤ len x)) := by
  rw [updateArchiveGoal_eq]
  cases hbc : bestCandidate len (fun c => ff.isOptimal (ff.getFitness c))
      (entryLength len e) cs with
  | none =>
    exact Or.inl ⟨rfl, fun c hc hopt =>
      bestCandidate_none len _ cs _ hbc c hc hopt⟩
  | some c =>
    obtain ⟨l1, l2, heq, hopt, hlt, hl1, hl2⟩ :=
      bestCandidate_some len _ cs _ c hbc
    exact Or.inr ⟨c, l1, l2, rfl, heq, hopt, hlt, hl1, hl2⟩

/-- Witness for C2: candidates `7, 9, 8` with lengths `2, 4, 3` and empty
entry, all optimal: the entry becomes `7`, the (earliest) optimal
candidate of minimal length, and the characterization instantiates. -/
theorem mosa_archive_replacement_witness :
    updateArchiveGoal (fun c => c % 5) ffAtLeast5 [7, 9, 8] none = some 7 ∧
    (∃ c l1 l2,
      updateArchiveGoal (fun c => c % 5) ffAtLeast5 [7, 9, 8] none = some c ∧
      [7, 9, 8] = l1 ++ c :: l2 ∧
      ffAtLeast5.isOptimal (ffAtLeast5.getFitness c) = true ∧
      (fun c => c % 5) c < entryLength (fun c => c % 5) none ∧
      (∀ x ∈ l1, ffAtLeast5.isOptimal (ffAtLeast5.getFitness x) = true →
        (fun c => c % 5) c < (fun c => c % 5) x) ∧
      (∀ x ∈ l2, ffAtLeast5.isOptimal (ffAtLeast5.getFitness x) = true →
        (fun c => c % 5) c ≤ (fun c => c % 5) x)) :=
  ⟨by decide,
   (mosa_archive_replacement (fun c => c % 5) ffAtLeast5 [7, 9, 8]
      none).resolve_left (by decide)⟩

/-! # MOSA dominance: characterization and strict-partial-order lemmas -/

theorem dominatesAux_iff (archive : ℕ → Option C) (c1 c2 : C) :
    ∀ (l : List (ℕ × FitnessFunction C)) (flag : Bool),
    dominatesAux archive c1 c2 l flag = true ↔
      ((∀ kff ∈ l, archive kff.1 = none →
          0 ≤ kff.2.compare (kff.2.getFitness c1) (kff.2.getFitness c2)) ∧
        (flag = true ∨ ∃ kff ∈ l, archive kff.1 = none ∧
          0 < kff.2.compare (kff.2.getFitness c1) (kff.2.getFitness c2))) := by
  intro l
  induction l with
  | nil => intro flag; simp [dominatesAux]
  | cons kff rest ih =>
    intro flag
    obtain ⟨k, ff⟩ := kff
    by_cases hcov : (archive k).isSome = true
    · have hstep : dominatesAux archive c1 c2 ((k, ff) :: rest) flag
          = dominatesAux archive c1 c2 rest flag := by
        simp only [dominatesAux, if_pos hcov]
      have hknone : ¬ (archive k = none) := by
        intro h; rw [h] at hcov; simp at hcov
      rw [hstep, ih flag]
      constructor
      · rintro ⟨h1, h2⟩
        refine ⟨?_, ?_⟩
        · intro kff2 hm hn
          rcases List.mem_cons.mp hm with rfl | hm
          · exact absurd hn hknone
          · exact h1 kff2 hm hn
        · rcases h2 with h2 | ⟨kff2, hm, hn, hgt⟩
          · exact Or.inl h2
          · exact Or.inr ⟨kff2, List.mem_cons_of_mem _ hm, hn, hgt⟩
      · rintro ⟨h1, h2⟩
        refine ⟨fun kff2 hm hn => h1 kff2 (List.mem_cons_of_mem _ hm) hn, ?_⟩
        rcases h2 with h2 | ⟨kff2, hm, hn, hgt⟩
        · exact Or.inl h2
        · rcases List.mem_cons.mp hm with rfl | hm
          · exact absurd hn hknone
          · exact Or.inr ⟨kff2, hm, hn, hgt⟩
    · have hknone : archive k = none := by
        rcases h : archive k with _ | v
        · rfl
        · rw [h] at hcov; simp at hcov
      by_cases hlt : ff.compare (ff.getFitness c1) (ff.getFitness c2) < 0
      · have hstep : dominatesAux archive c1 c2 ((k, ff) :: rest) flag = false := by
          simp only [dominatesAux, if_neg hcov, if_pos hlt]
        rw [hstep]
        constructor
        · intro h; exact absurd h (by simp)
        · rintro ⟨h1, _⟩
          have hle := h1 (k, ff) (List.mem_cons_self _ _) hknone
          exact absurd hle (not_le.mpr hlt)
      · by_cases hgt : 0 < ff.compare (ff.getFitness c1) (ff.getFitness c2)
        · have hstep : dominatesAux archive c1 c2 ((k, ff) :: rest) flag
              = dominatesAux archive c1 c2 rest true := by
            simp only [dominatesAux, if_neg hcov, if_neg hlt, if_pos hgt]
          rw [hstep, ih true]
          constructor
          · rintro ⟨h1, _⟩
            refine ⟨?_, Or.inr ⟨(k, ff), List.mem_cons_self _ _, hknone, hgt⟩⟩
            intro kff2 hm hn
            rcases List.mem_cons.mp hm with rfl | hm
            · exact le_of_lt hgt
            · exact h1 kff2 hm hn
          · rintro ⟨h1, _⟩
            exact ⟨fun kff2 hm hn => h1 kff2 (List.mem_cons_of_mem _ hm) hn, Or.inl rfl⟩
        · have hstep : dominatesAux archive c1 c2 ((k, ff) :: rest) flag
              = dominatesAux archive c1 c2 rest flag := by
            simp only [dominatesAux, if_neg hcov, if_neg hlt, if_neg hgt]
          rw [hstep, ih flag]
          constructor
          · rintro ⟨h1, h2⟩
            refine ⟨?_, ?_⟩
            · intro kff2 hm hn
              rcases List.mem_cons.mp hm with rfl | hm
              · exact not_lt.mp hlt
              · exact h1 kff2 hm hn
            · rcases h2 with h2 | ⟨kff2, hm, hn, hgt2⟩
              · exact Or.inl h2
              · exact Or.inr ⟨kff2, List.mem_cons_of_mem _ hm, hn, hgt2⟩
          · rintro ⟨h1, h2⟩
            refine ⟨fun kff2 hm hn => h1 kff2 (List.mem_cons_of_mem _ hm) hn, ?_⟩
            rcases h2 with h2 | ⟨kff2, hm, hn, hgt2⟩
            · exact Or.inl h2
            · rcases List.mem_cons.mp hm with rfl | hm
              · exact absurd hgt2 hgt
              · exact Or.inr ⟨kff2, hm, hn, hgt2⟩

theorem dominates_iff (ffs : List (ℕ × FitnessFunction C))
    (archive : ℕ → Option C) (c1 c2 : C) :
    dominates ffs archive c1 c2 = true ↔
      ((∀ kff ∈ ffs, archive kff.1 = none →
          0 ≤ kff.2.compare (kff.2.getFitness c1) (kff.2.getFitness c2)) ∧
        ∃ kff ∈ ffs, archive kff.1 = none ∧
          0 < kff.2.compare (kff.2.getFitness c1) (kff.2.getFitness c2)) := by
  unfold dominates
  rw [dominatesAux_iff]
  simp

theorem compareFlip_self {cmp : ℤ → ℤ → ℤ} (hf : CompareFlip cmp) (x : ℤ) :
    cmp x x = 0 := by
  have h := hf x x
  by_contra hne
  rcases lt_or_gt_of_ne hne with hlt | hgt
  · have := h.mpr hlt; linarith
  · have := h.mp hgt; linarith

theorem compareFlip_nonneg_swap {cmp : ℤ → ℤ → ℤ} (hf : CompareFlip cmp)
    {x y : ℤ} (h : cmp x y ≤ 0) : 0 ≤ cmp y x := by
  rcases lt_or_eq_of_le h with hlt | heq
  · exact le_of_lt ((hf y x).mpr hlt)
  · by_contra hcon
    push_neg at hcon
    have := (hf x y).mpr hcon
    linarith

theorem compare_strict_trans {cmp : ℤ → ℤ → ℤ} (hf : CompareFlip cmp)
    (ht : CompareTrans cmp) {x y z : ℤ} (h1 : 0 < cmp x y) (h2 : 0 ≤ cmp y z) :
    0 < cmp x z := by
  by_contra hcon
  push_neg at hcon
  have hzx : 0 ≤ cmp z x := compareFlip_nonneg_swap hf hcon
  have hyx : 0 ≤ cmp y x := ht y z x h2 hzx
  have := (hf x y).mp h1
  linarith

theorem dominates_asymm {ffs : List (ℕ × FitnessFunction C)}
    {archive : ℕ → Option C} (hg : GoodCompares ffs) {a b : C}
    (h : dominates ffs archive a b = true) :
    dominates ffs archive b a = false := by
  by_contra hcon
  rw [Bool.not_eq_false] at hcon
  obtain ⟨h1, kff, hm, hn, hgt⟩ := (dominates_iff ffs archive a b).mp h
  obtain ⟨h1b, -⟩ := (dominates_iff ffs archive b a).mp hcon
  have hle := h1b kff hm hn
  have := ((hg kff hm).1 _ _).mp hgt
  linarith

theorem dominates_trans {ffs : List (ℕ × FitnessFunction C)}
    {archive : ℕ → Option C} (hg : GoodCompares ffs) {a b c : C}
    (h1 : dominates ffs archive a b = true)
    (h2 : dominates ffs archive b c = true) :
    dominates ffs archive a c = true := by
  rw [dominates_iff] at h1 h2 ⊢
  obtain ⟨h1all, kff1, hm1, hn1, hgt1⟩ := h1
  obtain ⟨h2all, -⟩ := h2
  refine ⟨?_, kff1, hm1, hn1, ?_⟩
  · intro kff hm hn
    exact (hg kff hm).2 _ _ _ (h1all kff hm hn) (h2all kff hm hn)
  · exact compare_strict_trans (hg kff1 hm1).1 (hg kff1 hm1).2 hgt1
      (h2all kff1 hm1 hn1)

theorem dominates_irrefl {ffs : List (ℕ × FitnessFunction C)}
    {archive : ℕ → Option C} (hg : GoodCompares ffs) (a : C) :
    dominates ffs archive a a = false := by
  by_contra hcon
  rw [Bool.not_eq_false] at hcon
  obtain ⟨-, kff, hm, -, hgt⟩ := (dominates_iff ffs archive a a).mp hcon
  have := compareFlip_self (hg kff hm).1 (kff.2.getFitness a)
  linarith

/-- C4: `MOSA.dominates` agrees with the preference-restricted dominance
relation — `a` dominates `b` iff on every goal without an archive entry
`a`'s fitness compares no worse than `b`'s and strictly better on at least
one such goal — and, provided every fitness function's `compare` behaves
as a total order (sign flip under swap, transitivity of "no worse"), it is
a strict partial order: asymmetric and transitive. -/
theorem mosa_dominates_strict_partial_order
    (ffs : List (ℕ × FitnessFunction C)) (archive : ℕ → Option C)
    (hg : GoodCompares ffs) :
    (∀ a b : C, dominates ffs archive a b = true ↔
      ((∀ kff ∈ ffs, archive kff.1 = none →
          0 ≤ kff.2.compare (kff.2.getFitness a) (kff.2.getFitness b)) ∧
        ∃ kff ∈ ffs, archive kff.1 = none ∧
          0 < kff.2.compare (kff.2.getFitness a) (kff.2.getFitness b))) ∧
    (∀ a b : C, dominates ffs archive a b = true →
      dominates ffs archive b a = false) ∧
    (∀ a b c : C, dominates ffs archive a b = true →
      dominates ffs archive b c = true → dominates ffs archive a c = true) :=
  ⟨fun a b => dominates_iff ffs archive a b,
   fun _ _ h => dominates_asymm hg h,
   fun _ _ _ h1 h2 => dominates_trans hg h1 h2⟩

theorem compareSub_flip : CompareFlip (fun a b : ℤ => a - b) := by
  intro x y
  show 0 < x - y ↔ y - x < 0
  constructor <;> intro h <;> omega

theorem compareSub_trans : CompareTrans (fun a b : ℤ => a - b) := by
  intro x y z h1 h2
  have h1b : (0 : ℤ) ≤ x - y := h1
  have h2b : (0 : ℤ) ≤ y - z := h2
  show (0 : ℤ) ≤ x - z
  omega

theorem goodCompares_pair : GoodCompares [(0, ffAtLeast5), (1, ffAtLeast7)] := by
  intro kff hm
  rcases List.mem_cons.mp hm with rfl | hm
  · exact ⟨compareSub_flip, compareSub_trans⟩
  · rcases List.mem_cons.mp hm with rfl | hm
    · exact ⟨compareSub_flip, compareSub_trans⟩
    · simp at hm

/-- Witness for C4: with the two value-compare goals, chromosome `9`
dominates `5` and the theorem's asymmetry gives that `5` does not dominate
`9`. -/
theorem mosa_dominates_strict_partial_order_witness :
    GoodCompares [(0, ffAtLeast5), (1, ffAtLeast7)] ∧
    dominates [(0, ffAtLeast5), (1, ffAtLeast7)] (fun _ => none) 9 5 = true ∧
    dominates [(0, ffAtLeast5), (1, ffAtLeast7)] (fun _ => none) 5 9 = false :=
  ⟨goodCompares_pair, by decide,
   (mosa_dominates_strict_partial_order [(0, ffAtLeast5), (1, ffAtLeast7)]
     (fun _ => none) goodCompares_pair).2.1 9 5 (by decide)⟩

/-- Witness for C6 on the parents from the repository's own test:
`[T,T]` and `[F,F,F,F]` with `r = 1/2`. -/
theorem singlePointRelativeCrossover_conservation_witness :
    (0 : ℚ) < 1/2 ∧ (1/2 : ℚ) < 1 ∧
    ((singlePointRelativeCrossover (1/2) [true, true] [false, false, false, false]).1.length
        + (singlePointRelativeCrossover (1/2) [true, true] [false, false, false, false]).2.length
      = 2 + 4) := by
  refine ⟨by norm_num, by norm_num, ?_⟩
  have h := singlePointRelativeCrossover_conservation (1/2)
    [true, true] [false, false, false, false] (by norm_num) (by norm_num)
  simpa using h.1

/-! # Preference sorting: the per-goal best-chromosome scan -/

theorem compareFlip_zero {cmp : ℤ → ℤ → ℤ} (hf : CompareFlip cmp) {x y : ℤ}
    (h : cmp x y = 0) : cmp y x = 0 := by
  by_contra hne
  rcases lt_or_gt_of_ne hne with hlt | hgt
  · have := (hf x y).mpr hlt; omega
  · have := (hf y x).mp hgt; omega

theorem compare_strict_trans2 {cmp : ℤ → ℤ → ℤ} (hf : CompareFlip cmp)
    (ht : CompareTrans cmp) {x y z : ℤ} (h1 : 0 ≤ cmp x y) (h2 : 0 < cmp y z) :
    0 < cmp x z := by
  by_contra hcon
  push_neg at hcon
  have hzx : 0 ≤ cmp z x := compareFlip_nonneg_swap hf hcon
  have hzy : 0 ≤ cmp z y := ht z x y hzx h1
  have := (hf y z).mp h2
  omega

theorem betterForGoal_iff (len : C → ℕ) (ff : FitnessFunction C) (c b : C) :
    betterForGoal len ff c b = true ↔ StrictlyBetter len ff c b := by
  unfold betterForGoal StrictlyBetter
  exact decide_eq_true_iff

theorem strictlyBetter_irrefl {len : C → ℕ} {ff : FitnessFunction C}
    (hf : CompareFlip ff.compare) (x : C) : ¬ StrictlyBetter len ff x x := by
  have h0 := compareFlip_self hf (ff.getFitness x)
  rintro (h | ⟨-, h⟩)
  · omega
  · omega

theorem strictlyBetter_asymm {len : C → ℕ} {ff : FitnessFunction C}
    (hf : CompareFlip ff.compare) {x y : C} (h : StrictlyBetter len ff x y) :
    ¬ StrictlyBetter len ff y x := by
  rcases h with h | ⟨heq, hlen⟩
  · have hflip := (hf _ _).mp h
    rintro (h2 | ⟨heq2, -⟩) <;> omega
  · have hz := compareFlip_zero hf heq
    rintro (h2 | ⟨-, hlen2⟩)
    · omega
    · omega

theorem strictlyBetter_trans {len : C → ℕ} {ff : FitnessFunction C}
    (hf : CompareFlip ff.compare) (ht : CompareTrans ff.compare) {x y z : C}
    (h1 : StrictlyBetter len ff x y) (h2 : StrictlyBetter len ff y z) :
    StrictlyBetter len ff x z := by
  rcases h1 with h1 | ⟨heq1, hlen1⟩
  · rcases h2 with h2 | ⟨heq2, -⟩
    · exact Or.inl (compare_strict_trans hf ht h1 (le_of_lt h2))
    · exact Or.inl (compare_strict_trans hf ht h1 (le_of_eq heq2.symm))
  · rcases h2 with h2 | ⟨heq2, hlen2⟩
    · exact Or.inl (compare_strict_trans2 hf ht (le_of_eq heq1.symm) h2)
    · have hle := ht _ _ _ (le_of_eq heq1.symm) (le_of_eq heq2.symm)
      rcases lt_or_eq_of_le hle with hgt | heq3
      · exact Or.inl hgt
      · exact Or.inr ⟨heq3.symm, by omega⟩

/-- Resolution: if `x` is strictly preferable to `z` then, for any `y`,
`x` is strictly preferable to `y` or `y` is strictly preferable to `z`.
(Contrapositive: "not strictly preferable" is transitive.) -/
theorem strictlyBetter_resolve {len : C → ℕ} {ff : FitnessFunction C}
    (hf : CompareFlip ff.compare) (ht : CompareTrans ff.compare) {x z : C}
    (y : C) (h : StrictlyBetter len ff x z) :
    StrictlyBetter len ff x y ∨ StrictlyBetter len ff y z := by
  rcases lt_trichotomy (ff.compare (ff.getFitness x) (ff.getFitness y)) 0 with
    hxy | hxy | hxy
  · have hyx : 0 < ff.compare (ff.getFitness y) (ff.getFitness x) := by
      by_contra hcon
      push_neg at hcon
      have := compareFlip_nonneg_swap hf hcon
      omega
    rcases h with h | ⟨heq, -⟩
    · exact Or.inr (Or.inl (compare_strict_trans hf ht hyx (le_of_lt h)))
    · exact Or.inr (Or.inl (compare_strict_trans hf ht hyx (le_of_eq heq.symm)))
  · have hyx := compareFlip_zero hf hxy
    rcases h with h | ⟨heq, hlen⟩
    · exact Or.inr (Or.inl (compare_strict_trans2 hf ht (le_of_eq hyx.symm) h))
    · have hyz := ht _ _ _ (le_of_eq hyx.symm) (le_of_eq heq.symm)
      rcases lt_or_eq_of_le hyz with hgt | heq2
      · exact Or.inr (Or.inl hgt)
      · rcases Nat.lt_or_ge (len x) (len y) with hl | hl
        · exact Or.inl (Or.inr ⟨hxy, hl⟩)
        · exact Or.inr (Or.inr ⟨heq2.symm, by omega⟩)
  · exact Or.inl (Or.inl hxy)

theorem selectBest_mem (len : C → ℕ) (ff : FitnessFunction C) :
    ∀ (cr : List C) (c0 : C), selectBest len ff c0 cr ∈ c0 :: cr := by
  intro cr
  induction cr with
  | nil => intro c0; exact List.mem_singleton.mpr rfl
  | cons c cr ih =>
    intro c0
    have hstep : selectBest len ff c0 (c :: cr)
        = selectBest len ff (if betterForGoal len ff c c0 = true then c else c0) cr :=
      rfl
    rw [hstep]
    rcases List.mem_cons.mp (ih (if betterForGoal len ff c c0 = true then c else c0))
      with h | h
    · rw [h]
      by_cases hb : betterForGoal len ff c c0 = true
      · rw [if_pos hb]
        exact List.mem_cons_of_mem _ (List.mem_cons_self _ _)
      · rw [if_neg hb]
        exact List.mem_cons_self _ _
    · exact List.mem_cons_of_mem _ (List.mem_cons_of_mem _ h)

/-- The best-chromosome scan returns the goal's best: best fitness, ties
broken by shorter length, remaining ties by earliest position. -/
theorem selectBest_spec {len : C → ℕ} {ff : FitnessFunction C}
    (hf : CompareFlip ff.compare) (ht : CompareTrans ff.compare) :
    ∀ (cr : List C) (c0 : C), IsGoalBest len ff (c0 :: cr) (selectBest len ff c0 cr) := by
  intro cr
  induction cr with
  | nil =>
    intro c0
    refine ⟨[], [], rfl, ?_, by simp⟩
    intro c hc
    rcases List.mem_singleton.mp hc with rfl
    exact strictlyBetter_irrefl hf c
  | cons c cr ih =>
    intro c0
    by_cases hb : betterForGoal len ff c c0 = true
    · -- the head candidate replaces c0
      have hsb : StrictlyBetter len ff c c0 := (betterForGoal_iff len ff c c0).mp hb
      have hres : selectBest len ff c0 (c :: cr) = selectBest len ff c cr := by
        show selectBest len ff (if betterForGoal len ff c c0 = true then c else c0) cr
            = selectBest len ff c cr
        rw [if_pos hb]
      rw [hres]
      obtain ⟨l1, l2, hsplit, hnone, hpre⟩ := ih c
      set b := selectBest len ff c cr with hbdef
      have hnotb : ¬ StrictlyBetter len ff c0 b := by
        intro hcon
        rcases strictlyBetter_resolve hf ht c hcon with h | h
        · exact strictlyBetter_asymm hf hsb h
        · exact hnone c (List.mem_cons_self _ _) h
      have hall : ∀ x ∈ c0 :: c :: cr, ¬ StrictlyBetter len ff x b := by
        intro x hx
        rcases List.mem_cons.mp hx with rfl | hx
        · exact hnotb
        · exact hnone x hx
      cases l1 with
      | nil =>
        obtain ⟨hcb, -⟩ := List.cons_eq_cons.mp (by simpa using hsplit)
        refine ⟨[c0], cr, ?_, hall, ?_⟩
        · rw [← hcb]
          rfl
        · intro x hx
          rcases List.mem_singleton.mp hx with rfl
          rw [← hcb]
          exact hsb
      | cons e l1t =>
        obtain ⟨hce, hcr⟩ := List.cons_eq_cons.mp (by simpa using hsplit)
        have hbc : StrictlyBetter len ff b c := by
          have := hpre e (List.mem_cons_self _ _)
          rwa [← hce] at this
        refine ⟨c0 :: c :: l1t, l2, ?_, hall, ?_⟩
        · rw [hcr]
          rfl
        · intro x hx
          rcases List.mem_cons.mp hx with rfl | hx
          · exact strictlyBetter_trans hf ht hbc hsb
          rcases List.mem_cons.mp hx with rfl | hx
          · exact hbc
          · exact hpre x (List.mem_cons_of_mem _ hx)
    · -- c0 is kept
      have hnsb : ¬ StrictlyBetter len ff c c0 :=
        fun h => hb ((betterForGoal_iff len ff c c0).mpr h)
      have hres : selectBest len ff c0 (c :: cr) = selectBest len ff c0 cr := by
        show selectBest len ff (if betterForGoal len ff c c0 = true then c else c0) cr
            = selectBest len ff c0 cr
        rw [if_neg hb]
      rw [hres]
      obtain ⟨l1, l2, hsplit, hnone, hpre⟩ := ih c0
      set b := selectBest len ff c0 cr with hbdef
      have hnotc : ¬ StrictlyBetter len ff c b := by
        intro hcon
        rcases strictlyBetter_resolve hf ht c0 hcon with h | h
        · exact hnsb h
        · exact hnone c0 (List.mem_cons_self _ _) h
      have hall : ∀ x ∈ c0 :: c :: cr, ¬ StrictlyBetter len ff x b := by
        intro x hx
        rcases List.mem_cons.mp hx with rfl | hx
        · exact hnone x (List.mem_cons_self _ _)
        rcases List.mem_cons.mp hx with rfl | hx
        · exact hnotc
        · exact hnone x (List.mem_cons_of_mem _ hx)
      cases l1 with
      | nil =>
        obtain ⟨hcb, -⟩ := List.cons_eq_cons.mp (by simpa using hsplit)
        refine ⟨[], c :: cr, ?_, hall, by simp⟩
        rw [← hcb]
        rfl
      | cons e l1t =>
        obtain ⟨hce, hcr⟩ := List.cons_eq_cons.mp (by simpa using hsplit)
        have hbc0 : StrictlyBetter len ff b c0 := by
          have := hpre e (List.mem_cons_self _ _)
          rwa [← hce] at this
        have hbc : StrictlyBetter len ff b c := by
          rcases strictlyBetter_resolve hf ht c hbc0 with h | h
          · exact h
          · exact absurd h hnsb
        refine ⟨c0 :: c :: l1t, l2, ?_, hall, ?_⟩
        · rw [hcr]
          rfl
        · intro x hx
          rcases List.mem_cons.mp hx with rfl | hx
          · exact hbc0
          rcases List.mem_cons.mp hx with rfl | hx
          · exact hbc
          · exact hpre x (List.mem_cons_of_mem _ hx)

/-! # Preference sorting: the goal loop building the best front -/

theorem bestFrontLoop_spec (len : C → ℕ) (archive : ℕ → Option C)
    (c0 : C) (cr : List C) :
    ∀ (goals : List (ℕ × FitnessFunction C)) (B rest : List C),
    B.Nodup →
    rest.Sublist (c0 :: cr) →
    (∀ c ∈ c0 :: cr, c ∉ B → c ∈ rest) →
    ((B : Multiset C) + (rest : Multiset C) = ((c0 :: cr : List C) : Multiset C)) →
    ∃ B2 rest2,
      bestFrontLoop len archive (c0 :: cr) goals B rest = some (B2, rest2) ∧
      B2.Nodup ∧
      (∀ x ∈ B, x ∈ B2) ∧
      (∀ kff ∈ goals, archive kff.1 = none → selectBest len kff.2 c0 cr ∈ B2) ∧
      (∀ b ∈ B2, b ∈ B ∨ ∃ kff ∈ goals, archive kff.1 = none ∧
        b = selectBest len kff.2 c0 cr) ∧
      rest2.Sublist (c0 :: cr) ∧
      ((B2 : Multiset C) + (rest2 : Multiset C)
        = ((c0 :: cr : List C) : Multiset C)) := by
  intro goals
  induction goals with
  | nil =>
    intro B rest hBnd hsub hmem hms
    exact ⟨B, rest, rfl, hBnd, fun x hx => hx,
      fun kff hm => absurd hm (by simp), fun b hb => Or.inl hb, hsub, hms⟩
  | cons kff0 goals ih =>
    intro B rest hBnd hsub hmem hms
    obtain ⟨k, ff⟩ := kff0
    by_cases hcov : (archive k).isSome = true
    · have hstep : bestFrontLoop len archive (c0 :: cr) ((k, ff) :: goals) B rest
          = bestFrontLoop len archive (c0 :: cr) goals B rest := by
        simp only [bestFrontLoop, if_pos hcov]
      obtain ⟨B2, rest2, h1, h2, h3, h4, h5, h6, h7⟩ := ih B rest hBnd hsub hmem hms
      refine ⟨B2, rest2, hstep ▸ h1, h2, h3, ?_, ?_, h6, h7⟩
      · intro kff2 hm hn
        rcases List.mem_cons.mp hm with rfl | hm
        · rw [hn] at hcov
          simp at hcov
        · exact h4 kff2 hm hn
      · intro b hb
        rcases h5 b hb with hB | ⟨kff2, hm, hn, heq⟩
        · exact Or.inl hB
        · exact Or.inr ⟨kff2, List.mem_cons_of_mem _ hm, hn, heq⟩
    · have hknone : archive k = none := by
        rcases h : archive k with _ | v
        · rfl
        · rw [h] at hcov; simp at hcov
      by_cases hbB : selectBest len ff c0 cr ∈ B
      · have hstep : bestFrontLoop len archive (c0 :: cr) ((k, ff) :: goals) B rest
            = bestFrontLoop len archive (c0 :: cr) goals B rest := by
          simp only [bestFrontLoop, if_neg hcov, if_pos hbB]
        obtain ⟨B2, rest2, h1, h2, h3, h4, h5, h6, h7⟩ := ih B rest hBnd hsub hmem hms
        refine ⟨B2, rest2, hstep ▸ h1, h2, h3, ?_, ?_, h6, h7⟩
        · intro kff2 hm hn
          rcases List.mem_cons.mp hm with rfl | hm
          · exact h3 _ hbB
          · exact h4 kff2 hm hn
        · intro b hb
          rcases h5 b hb with hB | ⟨kff2, hm, hn, heq⟩
          · exact Or.inl hB
          · exact Or.inr ⟨kff2, List.mem_cons_of_mem _ hm, hn, heq⟩
      · have hstep : bestFrontLoop len archive (c0 :: cr) ((k, ff) :: goals) B rest
            = bestFrontLoop len archive (c0 :: cr) goals
                (B ++ [selectBest len ff c0 cr])
                (rest.erase (selectBest len ff c0 cr)) := by
          simp only [bestFrontLoop, if_neg hcov, if_neg hbB]
        have hbR : selectBest len ff c0 cr ∈ c0 :: cr := selectBest_mem len ff cr c0
        have hbrest : selectBest len ff c0 cr ∈ rest := hmem _ hbR hbB
        have hnd2 : (B ++ [selectBest len ff c0 cr]).Nodup := by
          rw [List.nodup_append]
          refine ⟨hBnd, List.nodup_singleton _, ?_⟩
          intro a ha ha2
          rcases List.mem_singleton.mp ha2 with rfl
          exact hbB ha
        have hsub2 : (rest.erase (selectBest len ff c0 cr)).Sublist (c0 :: cr) :=
          (List.erase_sublist _ rest).trans hsub
        have hmem2 : ∀ c ∈ c0 :: cr, c ∉ B ++ [selectBest len ff c0 cr] →
            c ∈ rest.erase (selectBest len ff c0 cr) := by
          intro c hc hcB
          rw [List.mem_append] at hcB
          push_neg at hcB
          have hne : c ≠ selectBest len ff c0 cr := by
            intro heq
            exact hcB.2 (heq ▸ List.mem_singleton.mpr rfl)
          rw [List.mem_erase_of_ne hne]
          exact hmem c hc hcB.1
        have hms2 : ((B ++ [selectBest len ff c0 cr] : List C) : Multiset C)
              + ((rest.erase (selectBest len ff c0 cr) : List C) : Multiset C)
            = ((c0 :: cr : List C) : Multiset C) := by
          rw [← Multiset.coe_add B [selectBest len ff c0 cr],
            ← Multiset.coe_erase]
          rw [show ((B : Multiset C) + ([selectBest len ff c0 cr] : List C)
              + ((rest : Multiset C)).erase (selectBest len ff c0 cr))
            = (B : Multiset C) + (([selectBest len ff c0 cr] : List C)
              + ((rest : Multiset C)).erase (selectBest len ff c0 cr)) from
            add_assoc _ _ _]
          rw [show (([selectBest len ff c0 cr] : List C) : Multiset C)
              = {selectBest len ff c0 cr} from rfl]
          rw [Multiset.singleton_add, Multiset.cons_erase
            (Multiset.mem_coe.mpr hbrest)]
          exact hms
        obtain ⟨B2, rest2, h1, h2, h3, h4, h5, h6, h7⟩ :=
          ih (B ++ [selectBest len ff c0 cr])
            (rest.erase (selectBest len ff c0 cr)) hnd2 hsub2 hmem2 hms2
        refine ⟨B2, rest2, hstep ▸ h1, h2, ?_, ?_, ?_, h6, h7⟩
        · intro x hx
          exact h3 x (List.mem_append_left _ hx)
        · intro kff2 hm hn
          rcases List.mem_cons.mp hm with rfl | hm
          · exact h3 _ (List.mem_append_right _ (List.mem_singleton.mpr rfl))
          · exact h4 kff2 hm hn
        · intro b hb
          rcases h5 b hb with hB | ⟨kff2, hm, hn, heq⟩
          · rcases List.mem_append.mp hB with hB | hB
            · exact Or.inl hB
            · rcases List.mem_singleton.mp hB with rfl
              exact Or.inr ⟨(k, ff), List.mem_cons_self _ _, hknone, rfl⟩
          · exact Or.inr ⟨kff2, List.mem_cons_of_mem _ hm, hn, heq⟩

/-- C5: preference sorting.  For a non-empty population `c0 :: cr`, the
goal loop succeeds, and: the best front contains, for every goal without
an archive entry, the loop's winner, which is the goal's best chromosome
(best fitness, ties broken by shorter length, remaining ties by earliest
position); chromosomes appear at most once; the best front holds nothing
else; the remaining chromosomes are the population minus one occurrence of
each best-front member (as multisets); and `preferenceSorting` passes them
to fast non-dominated sorting except that, when the best front is larger
than the population size, they are appended as one single unsorted
front. -/
theorem mosa_preference_sorting (len : C → ℕ)
    (ffs : List (ℕ × FitnessFunction C)) (archive : ℕ → Option C) (N : ℕ)
    (c0 : C) (cr : List C) (hg : GoodCompares ffs) :
    ∃ B rest,
      bestFrontLoop len archive (c0 :: cr) ffs [] (c0 :: cr) = some (B, rest) ∧
      preferenceSorting len ffs archive N (c0 :: cr)
        = some ((if 0 < B.length then [B] else []) ++
            (if N < B.length then [rest]
             else fastNonDominatedSorting (dominates ffs archive) rest)) ∧
      B.Nodup ∧
      (∀ kff ∈ ffs, archive kff.1 = none →
        selectBest len kff.2 c0 cr ∈ B ∧
        IsGoalBest len kff.2 (c0 :: cr) (selectBest len kff.2 c0 cr)) ∧
      (∀ b ∈ B, ∃ kff ∈ ffs, archive kff.1 = none ∧
        b = selectBest len kff.2 c0 cr) ∧
      ((B : Multiset C) + (rest : Multiset C)
        = ((c0 :: cr : List C) : Multiset C)) := by
  obtain ⟨B, rest, h1, h2, h3, h4, h5, h6, h7⟩ :=
    bestFrontLoop_spec len archive c0 cr ffs [] (c0 :: cr) List.nodup_nil
      (List.Sublist.refl _) (fun c hc _ => hc) (by simp)
  refine ⟨B, rest, h1, ?_, h2, ?_, ?_, h7⟩
  · unfold preferenceSorting
    rw [h1]
  · intro kff hm hn
    exact ⟨h4 kff hm hn, selectBest_spec (hg kff hm).1 (hg kff hm).2 cr c0⟩
  · intro b hb
    rcases h5 b hb with hB | h
    · simp at hB
    · exact h

/-- Witness for C5: population `[4, 9, 6]`, both goals uncovered: the goal
loop succeeds, the best front has no duplicates and contains the winner of
the scan for goal `0`. -/
theorem mosa_preference_sorting_witness :
    GoodCompares [(0, ffAtLeast5), (1, ffAtLeast7)] ∧
    ∃ B rest,
      bestFrontLoop (fun _ => (1 : ℕ)) (fun _ => none) [4, 9, 6]
        [(0, ffAtLeast5), (1, ffAtLeast7)] [] [4, 9, 6] = some (B, rest) ∧
      B.Nodup ∧ selectBest (fun _ => (1 : ℕ)) ffAtLeast5 4 [9, 6] ∈ B :=
  ⟨goodCompares_pair, by
    obtain ⟨B, rest, h1, h2, h3, h4, h5, h6⟩ :=
      mosa_preference_sorting (fun _ => (1 : ℕ)) [(0, ffAtLeast5), (1, ffAtLeast7)]
        (fun _ => none) 2 4 [9, 6] goodCompares_pair
    exact ⟨B, rest, h1, h3, (h4 (0, ffAtLeast5) (List.mem_cons_self _ _) rfl).1⟩⟩

/-! # Fast non-dominated sorting: the decrement bookkeeping -/

theorem decrementVictims_spec :
    ∀ (victims : List C), victims.Nodup →
    ∀ (counts : C → ℤ) (acc : List C),
    (∀ x, (decrementVictims victims (counts, acc)).1 x
      = if x ∈ victims then counts x - 1 else counts x) ∧
    (decrementVictims victims (counts, acc)).2
      = acc ++ victims.filter (fun q => decide (counts q = 1)) := by
  intro victims
  induction victims with
  | nil =>
    intro _ counts acc
    exact ⟨fun x => by simp [decrementVictims], by simp [decrementVictims]⟩
  | cons q vs ih =>
    intro hnd counts acc
    have hq : q ∉ vs := (List.nodup_cons.mp hnd).1
    have hvs : vs.Nodup := (List.nodup_cons.mp hnd).2
    have hstep : decrementVictims (q :: vs) (counts, acc)
        = decrementVictims vs
            (Function.update counts q (counts q - 1),
             if counts q - 1 = 0 then acc ++ [q] else acc) := rfl
    obtain ⟨ihp, iha⟩ := ih hvs (Function.update counts q (counts q - 1))
      (if counts q - 1 = 0 then acc ++ [q] else acc)
    constructor
    · intro x
      rw [hstep, ihp x]
      by_cases hx : x ∈ vs
      · rw [if_pos hx, if_pos (List.mem_cons_of_mem _ hx),
          Function.update_apply, if_neg (by rintro rfl; exact hq hx)]
      · by_cases hxq : x = q
        · subst hxq
          rw [if_neg hx, if_pos (List.mem_cons_self _ _), Function.update_same]
        · rw [if_neg hx, if_neg (by simp [hxq, hx]),
            Function.update_apply, if_neg hxq]
    · rw [hstep, iha]
      have hfpp : vs.filter
            (fun x => decide (Function.update counts q (counts q - 1) x = 1))
          = vs.filter (fun x => decide (counts x = 1)) := by
        apply List.filter_congr
        intro x hx
        rw [Function.update_apply, if_neg (by rintro rfl; exact hq hx)]
      rw [hfpp, List.filter_cons]
      by_cases hq1 : counts q = 1
      · rw [if_pos (by omega), if_pos (by simp [hq1]), List.append_assoc]
        rfl
      · rw [if_neg (by omega), if_neg (by simp [hq1])]

theorem processFold_spec (dom : C → C → Bool) (all : List C) (hand : all.Nodup) :
    ∀ (front : List C) (counts : C → ℤ) (acc : List C),
    (∀ x ∈ all,
      (front.foldl (fun st p => decrementVictims (all.filter (fun q => dom p q)) st)
        (counts, acc)).1 x
      = counts x - ((front.filter (fun p => dom p x)).length : ℤ)) ∧
    ∃ nf : List C,
      (front.foldl (fun st p => decrementVictims (all.filter (fun q => dom p q)) st)
        (counts, acc)).2 = acc ++ nf ∧
      nf.Nodup ∧
      (∀ q, q ∈ nf ↔ (q ∈ all ∧ 1 ≤ counts q ∧
        counts q ≤ ((front.filter (fun p => dom p q)).length : ℤ))) := by
  intro front
  induction front with
  | nil =>
    intro counts acc
    refine ⟨fun x _ => by simp, [], by simp, List.nodup_nil, ?_⟩
    intro q
    simp only [List.not_mem_nil, List.filter_nil, List.length_nil, Nat.cast_zero,
      false_iff, not_and]
    intro _ h1
    omega
  | cons p front ih =>
    intro counts acc
    have hvnd : (all.filter (fun q => dom p q)).Nodup := hand.filter _
    obtain ⟨hdp, hda⟩ :=
      decrementVictims_spec (all.filter (fun q => dom p q)) hvnd counts acc
    obtain ⟨ihp, nf', h2a, h2b, h2c⟩ :=
      ih (decrementVictims (all.filter (fun q => dom p q)) (counts, acc)).1
        (decrementVictims (all.filter (fun q => dom p q)) (counts, acc)).2
    simp only [Prod.mk.eta] at ihp h2a
    constructor
    · intro x hx
      simp only [List.foldl_cons]
      rw [ihp x hx, hdp x]
      by_cases hdom : dom p x = true
      · have hxv : x ∈ all.filter (fun q => dom p q) := List.mem_filter.mpr ⟨hx, hdom⟩
        rw [if_pos hxv]
        have e4 : ((p :: front).filter (fun p2 => dom p2 x)).length
            = (front.filter (fun p2 => dom p2 x)).length + 1 := by
          simp [List.filter_cons, hdom]
        rw [e4]
        push_cast
        ring
      · have hxv : x ∉ all.filter (fun q => dom p q) :=
          fun hmem => hdom (List.mem_filter.mp hmem).2
        rw [if_neg hxv]
        have e4 : ((p :: front).filter (fun p2 => dom p2 x)).length
            = (front.filter (fun p2 => dom p2 x)).length := by
          simp [List.filter_cons, hdom]
        rw [e4]
    · refine ⟨(all.filter (fun q => dom p q)).filter
          (fun q => decide (counts q = 1)) ++ nf', ?_, ?_, ?_⟩
      · simp only [List.foldl_cons]
        rw [h2a, hda, List.append_assoc]
      · rw [List.nodup_append]
        refine ⟨hvnd.filter _, h2b, ?_⟩
        intro a ha ha2
        have hav : a ∈ all.filter (fun q => dom p q) := (List.mem_filter.mp ha).1
        have hc1 : counts a = 1 :=
          of_decide_eq_true (List.mem_filter.mp ha).2
        have hnf := (h2c a).mp ha2
        rw [hdp a, if_pos hav] at hnf
        omega
      · intro q
        rw [List.mem_append]
        by_cases hqall : q ∈ all
        · by_cases hdom : dom p q = true
          · have hqv : q ∈ all.filter (fun q2 => dom p q2) :=
              List.mem_filter.mpr ⟨hqall, hdom⟩
            have e1 : q ∈ (all.filter (fun q2 => dom p q2)).filter
                  (fun q2 => decide (counts q2 = 1))
                ↔ counts q = 1 := by
              rw [List.mem_filter]
              simp [hqv]
            have e3 := h2c q
            rw [hdp q, if_pos hqv] at e3
            have e4 : ((p :: front).filter (fun p2 => dom p2 q)).length
                = (front.filter (fun p2 => dom p2 q)).length + 1 := by
              simp [List.filter_cons, hdom]
            rw [e1, e3, e4]
            push_cast
            simp only [hqall, true_and]
            omega
          · have hqv : q ∉ all.filter (fun q2 => dom p q2) :=
              fun hmem => hdom (List.mem_filter.mp hmem).2
            have e1 : q ∉ (all.filter (fun q2 => dom p q2)).filter
                (fun q2 => decide (counts q2 = 1)) :=
              fun hmem => hqv (List.mem_filter.mp hmem).1
            have e3 := h2c q
            rw [hdp q, if_neg hqv] at e3
            have e4 : ((p :: front).filter (fun p2 => dom p2 q)).length
                = (front.filter (fun p2 => dom p2 q)).length := by
              simp [List.filter_cons, hdom]
            rw [e3, e4]
            constructor
            · rintro (h | h)
              · exact absurd h e1
              · exact h
            · exact fun h => Or.inr h
        · have e1 : q ∉ (all.filter (fun q2 => dom p q2)).filter
              (fun q2 => decide (counts q2 = 1)) := by
            intro hmem
            exact hqall (List.mem_filter.mp (List.mem_filter.mp hmem).1).1
          constructor
          · rintro (h | h)
            · exact absurd h e1
            · exact absurd ((h2c q).mp h).1 hqall
          · rintro ⟨h, -⟩
            exact absurd h hqall

/-! # Fast non-dominated sorting: the front-peeling loop covers every
chromosome when the input has no duplicate objects and dominance is a
strict partial order -/

theorem peelFronts_sum (dom : C → C → Bool) (cs : List C) (hnd : cs.Nodup)
    (hirr : ∀ a, dom a a = false)
    (htr : ∀ a b c, dom a b = true → dom b c = true → dom a c = true) :
    ∀ (fuel : ℕ) (placed : Finset C) (current : List C) (counts : C → ℤ),
    current.Nodup →
    (∀ x ∈ current, x ∈ cs) →
    (∀ x ∈ current, x ∉ placed) →
    (∀ x ∈ cs, x ∉ placed → (x ∈ current ↔
        ∀ p ∈ cs, dom p x = true → p ∈ placed)) →
    (∀ x ∈ cs, x ∉ placed → counts x
        = (((cs.filter (fun p => dom p x)).toFinset \ placed).card : ℤ)) →
    (∀ x ∈ cs, x ∈ placed → counts x ≤ 0) →
    (cs.toFinset \ placed).card < fuel →
    ((peelFronts dom cs fuel current counts).map List.length).sum
      = (cs.toFinset \ placed).card := by
  intro fuel
  induction fuel with
  | zero => intro placed current counts _ _ _ _ _ _ hcard; omega
  | succ fuel ih =>
    intro placed current counts hcnd hccs hcnp hchar hcounts hplaced hcard
    by_cases hcur : current.isEmpty
    · have hres : peelFronts dom cs (fuel + 1) current counts = [] := by
        simp [peelFronts, hcur]
      rw [hres]
      simp only [List.map_nil, List.sum_nil]
      by_contra hne
      have hUne : (cs.toFinset \ placed).Nonempty := by
        rw [← Finset.card_pos]
        omega
      obtain ⟨u, hu, hmin⟩ := Finset.exists_min_image (cs.toFinset \ placed)
        (fun x => ((cs.filter (fun p => dom p x)).toFinset ∩ (cs.toFinset \ placed)).card)
        hUne
      have hucs : u ∈ cs := List.mem_toFinset.mp (Finset.mem_sdiff.mp hu).1
      have hunp : u ∉ placed := (Finset.mem_sdiff.mp hu).2
      by_cases hcnt :
          ((cs.filter (fun p => dom p u)).toFinset ∩ (cs.toFinset \ placed)).card = 0
      · have hempty : (cs.filter (fun p => dom p u)).toFinset ∩ (cs.toFinset \ placed)
            = ∅ := Finset.card_eq_zero.mp hcnt
        have hdomsplaced : ∀ p ∈ cs, dom p u = true → p ∈ placed := by
          intro p hp hdp
          by_contra hpnp
          have : p ∈ (cs.filter (fun p2 => dom p2 u)).toFinset ∩ (cs.toFinset \ placed) := by
            rw [Finset.mem_inter, Finset.mem_sdiff]
            exact ⟨List.mem_toFinset.mpr (List.mem_filter.mpr ⟨hp, hdp⟩),
              List.mem_toFinset.mpr hp, hpnp⟩
          rw [hempty] at this
          exact absurd this (Finset.not_mem_empty p)
        have : u ∈ current := (hchar u hucs hunp).mpr hdomsplaced
        rw [List.isEmpty_iff] at hcur
        rw [hcur] at this
        exact absurd this (List.not_mem_nil u)
      · have hpos : 0 <
            ((cs.filter (fun p => dom p u)).toFinset ∩ (cs.toFinset \ placed)).card := by
          omega
        obtain ⟨y, hy⟩ := Finset.card_pos.mp hpos
        rw [Finset.mem_inter] at hy
        have hyfil := List.mem_filter.mp (List.mem_toFinset.mp hy.1)
        have hycs : y ∈ cs := hyfil.1
        have hydom : dom y u = true := hyfil.2
        have hss : (cs.filter (fun p => dom p y)).toFinset ∩ (cs.toFinset \ placed)
            ⊂ (cs.filter (fun p => dom p u)).toFinset ∩ (cs.toFinset \ placed) := by
          constructor
          · intro z hz
            rw [Finset.mem_inter] at hz ⊢
            have hzfil := List.mem_filter.mp (List.mem_toFinset.mp hz.1)
            exact ⟨List.mem_toFinset.mpr
              (List.mem_filter.mpr ⟨hzfil.1, htr z y u hzfil.2 hydom⟩), hz.2⟩
          · intro hsub
            have : y ∈ (cs.filter (fun p => dom p y)).toFinset ∩ (cs.toFinset \ placed) :=
              hsub (Finset.mem_inter.mpr hy)
            rw [Finset.mem_inter] at this
            have := (List.mem_filter.mp (List.mem_toFinset.mp this.1)).2
            rw [hirr y] at this
            exact absurd this (by simp)
        have hlt := Finset.card_lt_card hss
        have := hmin y hy.2
        omega
    · have hres : peelFronts dom cs (fuel + 1) current counts
          = current :: peelFronts dom cs fuel
              (processFront dom cs current counts).2
              (processFront dom cs current counts).1 := by
        simp [peelFronts, hcur]
      rw [hres]
      have hcne : current ≠ [] := by
        intro h
        rw [h] at hcur
        exact hcur (by rfl)
      obtain ⟨hp, nf, hnf_eq, hnf_nd, hnf_char⟩ :=
        processFold_spec dom cs hnd current counts []
      simp only [List.nil_append] at hnf_eq
      have hproc2 : (processFront dom cs current counts).2 = nf := hnf_eq
      have hproc1 : ∀ x ∈ cs, (processFront dom cs current counts).1 x
          = counts x - ((current.filter (fun p => dom p x)).length : ℤ) := hp
      -- set-theoretic bookkeeping
      have hcurcs : current.toFinset ⊆ cs.toFinset := by
        intro z hz
        exact List.mem_toFinset.mpr (hccs z (List.mem_toFinset.mp hz))
      have hcurlen : current.toFinset.card = current.length :=
        List.toFinset_card_of_nodup hcnd
      have hcursub : current.toFinset ⊆ cs.toFinset \ placed := by
        intro z hz
        rw [Finset.mem_sdiff]
        exact ⟨hcurcs hz, hcnp z (List.mem_toFinset.mp hz)⟩
      have hD : ∀ x, (current.filter (fun p => dom p x)).toFinset
          = (cs.filter (fun p => dom p x)).toFinset ∩ current.toFinset := by
        intro x
        ext z
        simp only [List.mem_toFinset, List.mem_filter, Finset.mem_inter]
        constructor
        · rintro ⟨hzc, hzd⟩
          exact ⟨⟨hccs z hzc, hzd⟩, hzc⟩
        · rintro ⟨⟨-, hzd⟩, hzc⟩
          exact ⟨hzc, hzd⟩
      have hT : ∀ x, ((current.filter (fun p => dom p x)).length : ℤ)
          = (((cs.filter (fun p => dom p x)).toFinset ∩ current.toFinset).card : ℤ) := by
        intro x
        rw [← hD x, List.toFinset_card_of_nodup (hcnd.filter _)]
      have hDsub : ∀ x, x ∉ placed →
          (cs.filter (fun p => dom p x)).toFinset ∩ current.toFinset
            ⊆ (cs.filter (fun p => dom p x)).toFinset \ placed := by
        intro x _ z hz
        rw [Finset.mem_inter] at hz
        rw [Finset.mem_sdiff]
        exact ⟨hz.1, hcnp z (List.mem_toFinset.mp hz.2)⟩
      -- invariant for the next round
      have hnfcs : ∀ x ∈ nf, x ∈ cs := fun x hx => ((hnf_char x).mp hx).1
      have hnfnp : ∀ x ∈ nf, x ∉ placed ∪ current.toFinset := by
        intro x hx hxp
        obtain ⟨hxcs, hx1, hx2⟩ := (hnf_char x).mp hx
        rcases Finset.mem_union.mp hxp with hxp | hxp
        · have := hplaced x hxcs hxp
          omega
        · have hxcur : x ∈ current := List.mem_toFinset.mp hxp
          have hxnp : x ∉ placed := hcnp x hxcur
          have hdoms := (hchar x hxcs hxnp).mp hxcur
          have hDempty : (cs.filter (fun p => dom p x)).toFinset \ placed = ∅ := by
            rw [Finset.eq_empty_iff_forall_not_mem]
            intro z hz
            rw [Finset.mem_sdiff] at hz
            have hzfil := List.mem_filter.mp (List.mem_toFinset.mp hz.1)
            exact hz.2 (hdoms z hzfil.1 hzfil.2)
          have := hcounts x hxcs hxnp
          rw [hDempty] at this
          simp at this
          omega
      have hchar2 : ∀ x ∈ cs, x ∉ placed ∪ current.toFinset →
          (x ∈ nf ↔ ∀ p ∈ cs, dom p x = true → p ∈ placed ∪ current.toFinset) := by
        intro x hxcs hxp
        rw [Finset.mem_union] at hxp
        push_neg at hxp
        obtain ⟨hxnp, hxnc⟩ := hxp
        have hxncur : x ∉ current := fun h => hxnc (List.mem_toFinset.mpr h)
        have hn := hcounts x hxcs hxnp
        have hmn : ((cs.filter (fun p => dom p x)).toFinset ∩ current.toFinset).card
            ≤ ((cs.filter (fun p => dom p x)).toFinset \ placed).card :=
          Finset.card_le_card (hDsub x hxnp)
        rw [hnf_char x]
        constructor
        · rintro ⟨-, h1, h2⟩
          rw [hn] at h1 h2
          rw [hT x] at h2
          have hcards : ((cs.filter (fun p => dom p x)).toFinset \ placed).card
              ≤ ((cs.filter (fun p => dom p x)).toFinset ∩ current.toFinset).card := by
            omega
          have heq := Finset.eq_of_subset_of_card_le (hDsub x hxnp) hcards
          intro p hpcs hpd
          by_cases hpp : p ∈ placed
          · exact Finset.mem_union_left _ hpp
          · have : p ∈ (cs.filter (fun p2 => dom p2 x)).toFinset \ placed := by
              rw [Finset.mem_sdiff]
              exact ⟨List.mem_toFinset.mpr (List.mem_filter.mpr ⟨hpcs, hpd⟩), hpp⟩
            rw [← heq] at this
            rw [Finset.mem_inter] at this
            exact Finset.mem_union_right _ this.2
        · intro hall
          have hsub2 : (cs.filter (fun p => dom p x)).toFinset \ placed
              ⊆ (cs.filter (fun p => dom p x)).toFinset ∩ current.toFinset := by
            intro z hz
            rw [Finset.mem_sdiff] at hz
            have hzfil := List.mem_filter.mp (List.mem_toFinset.mp hz.1)
            rcases Finset.mem_union.mp (hall z hzfil.1 hzfil.2) with h | h
            · exact absurd h hz.2
            · exact Finset.mem_inter.mpr ⟨hz.1, h⟩
          have hle2 := Finset.card_le_card hsub2
          have hpos : 1 ≤ ((cs.filter (fun p => dom p x)).toFinset \ placed).card := by
            by_contra hzero
            have hempty : (cs.filter (fun p => dom p x)).toFinset \ placed = ∅ := by
              rw [← Finset.card_eq_zero]
              omega
            have hdoms : ∀ p ∈ cs, dom p x = true → p ∈ placed := by
              intro p hpcs hpd
              by_contra hpp
              have : p ∈ (cs.filter (fun p2 => dom p2 x)).toFinset \ placed := by
                rw [Finset.mem_sdiff]
                exact ⟨List.mem_toFinset.mpr (List.mem_filter.mpr ⟨hpcs, hpd⟩), hpp⟩
              rw [hempty] at this
              exact absurd this (Finset.not_mem_empty p)
            exact hxncur ((hchar x hxcs hxnp).mpr hdoms)
          refine ⟨hxcs, ?_, ?_⟩
          · rw [hn]; omega
          · rw [hn, hT x]; omega
      have hcounts2 : ∀ x ∈ cs, x ∉ placed ∪ current.toFinset →
          (processFront dom cs current counts).1 x
            = (((cs.filter (fun p => dom p x)).toFinset
                \ (placed ∪ current.toFinset)).card : ℤ) := by
        intro x hxcs hxp
        rw [Finset.mem_union] at hxp
        push_neg at hxp
        obtain ⟨hxnp, hxnc⟩ := hxp
        rw [hproc1 x hxcs, hcounts x hxcs hxnp, hT x]
        have hmn := Finset.card_le_card (hDsub x hxnp)
        have hsd : (cs.filter (fun p => dom p x)).toFinset \ (placed ∪ current.toFinset)
            = ((cs.filter (fun p => dom p x)).toFinset \ placed)
              \ ((cs.filter (fun p => dom p x)).toFinset ∩ current.toFinset) := by
          ext z
          simp only [Finset.mem_sdiff, Finset.mem_union, Finset.mem_inter]
          tauto
        rw [hsd, Finset.card_sdiff (hDsub x hxnp)]
        push_cast [Nat.cast_sub hmn]
        ring
      have hplaced2 : ∀ x ∈ cs, x ∈ placed ∪ current.toFinset →
          (processFront dom cs current counts).1 x ≤ 0 := by
        intro x hxcs hxp
        rw [hproc1 x hxcs]
        rcases Finset.mem_union.mp hxp with hxp | hxp
        · have := hplaced x hxcs hxp
          have hTnn : (0 : ℤ) ≤ ((current.filter (fun p => dom p x)).length : ℤ) := by
            positivity
          omega
        · have hxcur : x ∈ current := List.mem_toFinset.mp hxp
          have hxnp : x ∉ placed := hcnp x hxcur
          have hdoms := (hchar x hxcs hxnp).mp hxcur
          have hDempty : (cs.filter (fun p => dom p x)).toFinset \ placed = ∅ := by
            rw [Finset.eq_empty_iff_forall_not_mem]
            intro z hz
            rw [Finset.mem_sdiff] at hz
            have hzfil := List.mem_filter.mp (List.mem_toFinset.mp hz.1)
            exact hz.2 (hdoms z hzfil.1 hzfil.2)
          have hc0 := hcounts x hxcs hxnp
          rw [hDempty] at hc0
          simp at hc0
          have hTnn : (0 : ℤ) ≤ ((current.filter (fun p => dom p x)).length : ℤ) := by
            positivity
          omega
      have hcard2 : (cs.toFinset \ (placed ∪ current.toFinset)).card
          = (cs.toFinset \ placed).card - current.length := by
        have hsd : cs.toFinset \ (placed ∪ current.toFinset)
            = (cs.toFinset \ placed) \ current.toFinset := by
          ext z
          simp only [Finset.mem_sdiff, Finset.mem_union]
          tauto
        rw [hsd, Finset.card_sdiff hcursub, hcurlen]
      have hlen1 : 1 ≤ current.length := by
        cases current with
        | nil => exact absurd rfl hcne
        | cons a l => simp
      have hlencard : current.length ≤ (cs.toFinset \ placed).card := by
        rw [← hcurlen]
        exact Finset.card_le_card hcursub
      have hrec := ih (placed ∪ current.toFinset)
        (processFront dom cs current counts).2
        (processFront dom cs current counts).1
        (hproc2 ▸ hnf_nd)
        (by rw [hproc2]; exact hnfcs)
        (by rw [hproc2]; exact hnfnp)
        (by
          intro x hxcs hxp
          rw [hproc2]
          exact hchar2 x hxcs hxp)
        hcounts2 hplaced2
        (by omega)
      simp only [List.map_cons, List.sum_cons]
      rw [hrec, hcard2]
      omega

/-- Under a strict partial dominance order and without duplicate objects,
the fronts of `fastNonDominatedSorting` cover the input: the front sizes
sum to the input size. -/
theorem fastNonDominatedSorting_sum (dom : C → C → Bool) (cs : List C)
    (hnd : cs.Nodup) (hirr : ∀ a, dom a a = false)
    (htr : ∀ a b c, dom a b = true → dom b c = true → dom a c = true) :
    ((fastNonDominatedSorting dom cs).map List.length).sum = cs.length := by
  unfold fastNonDominatedSorting
  have h := peelFronts_sum dom cs hnd hirr htr (cs.length + 1) ∅
    (firstFrontOf dom cs) (fun p => dominationCounts dom cs p)
    (hnd.filter _)
    (fun x hx => List.mem_of_mem_filter hx)
    (fun x _ => Finset.not_mem_empty x)
    (by
      intro x hxcs _
      unfold firstFrontOf
      rw [List.mem_filter]
      simp only [decide_eq_true_iff, hxcs, true_and]
      rw [List.length_eq_zero, List.filter_eq_nil_iff]
      constructor
      · intro hall p hp hdp
        exact absurd hdp (by simpa using hall p hp)
      · intro hall p hp
        simp only [Bool.not_eq_true]
        rcases hd : dom p x with _ | _
        · rfl
        · exact absurd (hall p hp hd) (Finset.not_mem_empty p))
    (by
      intro x hxcs _
      unfold dominationCounts
      rw [Finset.sdiff_empty, List.toFinset_card_of_nodup (hnd.filter _)])
    (fun x _ hx => absurd hx (Finset.not_mem_empty x))
    (by
      rw [Finset.sdiff_empty, List.toFinset_card_of_nodup hnd]
      omega)
  rw [h, Finset.sdiff_empty, List.toFinset_card_of_nodup hnd]

/-! # The front-filling loop of `MOSA.findSolution` -/

theorem fillPopulation_length (N : ℕ) :
    ∀ (fronts : List (List C)) (acc : List C), acc.length ≤ N →
    (fillPopulation N fronts acc).length
      = min N (acc.length + (fronts.map List.length).sum) := by
  intro fronts
  induction fronts with
  | nil =>
    intro acc hacc
    simp only [fillPopulation, List.map_nil, List.sum_nil, Nat.add_zero]
    omega
  | cons front rest ih =>
    intro acc hacc
    by_cases hfit : acc.length + front.length ≤ N
    · have hstep : fillPopulation N (front :: rest) acc
          = fillPopulation N rest (acc ++ front) := by
        simp only [fillPopulation, if_pos hfit]
      rw [hstep, ih (acc ++ front) (by simp only [List.length_append]; omega)]
      simp only [List.length_append, List.map_cons, List.sum_cons]
      omega
    · have hstep : fillPopulation N (front :: rest) acc
          = acc ++ front.take (N - acc.length) := by
        simp only [fillPopulation, if_neg hfit]
      rw [hstep]
      simp only [List.length_append, List.length_take, List.map_cons, List.sum_cons]
      omega

/-- C3 (amended): one MOSA iteration's parent replacement yields a
population of exactly `N` chromosomes, for any parents and offspring of
size `N` each, provided every fitness function's `compare` behaves as a
total order, the union `R` of parents and offspring contains no duplicate
chromosome objects, and the per-front reordering
(`subVectorDominanceSorting`, abstracted as `sortFront`) preserves front
sizes. -/
theorem mosa_population_size (len : C → ℕ)
    (ffs : List (ℕ × FitnessFunction C)) (archive : ℕ → Option C) (N : ℕ)
    (sortFront : List C → List C) (parents offspring : List C)
    (hg : GoodCompares ffs) (hN : 1 ≤ N)
    (hP : parents.length = N) (hQ : offspring.length = N)
    (hnd : (parents ++ offspring).Nodup)
    (hs : ∀ l : List C, (sortFront l).length = l.length) :
    ∃ P2, mosaNextPopulation len ffs archive N sortFront parents offspring
        = some P2 ∧ P2.length = N := by
  have hRlen : (parents ++ offspring).length = N + N := by
    rw [List.length_append, hP, hQ]
  cases hR : parents ++ offspring with
  | nil => rw [hR] at hRlen; simp at hRlen; omega
  | cons c0 cr =>
    obtain ⟨B, rest, h1, h2, h3, h4, h5, h6⟩ :=
      mosa_preference_sorting len ffs archive N c0 cr hg
    have hcards : B.length + rest.length = N + N := by
      have := congrArg Multiset.card h6
      simp only [Multiset.card_add, Multiset.coe_card] at this
      rw [this]
      rw [← hR, hRlen]
    have hrestnd : rest.Nodup := by
      obtain ⟨B2, rest2, hbf, _, _, _, _, hsub, _⟩ :=
        bestFrontLoop_spec len archive c0 cr ffs [] (c0 :: cr) List.nodup_nil
          (List.Sublist.refl _) (fun c hc _ => hc) (by simp)
      rw [h1] at hbf
      have heq : B = B2 ∧ rest = rest2 := by simpa using hbf
      rw [heq.2]
      exact hsub.nodup (hR ▸ hnd)
    have hfns : ∀ fronts : List (List C),
        ((fronts.map sortFront).map List.length).sum
          = (fronts.map List.length).sum := by
      intro fronts
      rw [List.map_map]
      congr 1
      apply List.map_congr_left
      intro l _
      exact hs l
    unfold mosaNextPopulation
    rw [hR, h2]
    refine ⟨_, rfl, ?_⟩
    rw [fillPopulation_length N _ [] (by simp)]
    rw [hfns]
    by_cases hBN : N < B.length
    · rw [if_pos hBN]
      have hsum : (((if 0 < B.length then [B] else []) ++ [rest]).map
          List.length).sum = B.length + rest.length := by
        rw [if_pos (by omega)]
        simp
      rw [hsum]
      simp only [List.length_nil, Nat.zero_add]
      omega
    · rw [if_neg hBN]
      have hLirr : ∀ a : C, dominates ffs archive a a = false :=
        fun a => dominates_irrefl hg a
      have hLtr : ∀ a b c : C, dominates ffs archive a b = true →
          dominates ffs archive b c = true → dominates ffs archive a c = true :=
        fun a b c hab hbc => dominates_trans hg hab hbc
      have hfsum := fastNonDominatedSorting_sum (dominates ffs archive) rest
        hrestnd hLirr hLtr
      by_cases hB0 : 0 < B.length
      · rw [if_pos hB0]
        simp only [List.map_append, List.sum_append, List.map_cons, List.sum_cons,
          List.map_nil, List.sum_nil]
        rw [hfsum]
        simp only [List.length_nil, Nat.zero_add]
        omega
      · rw [if_neg hB0]
        simp only [List.nil_append]
        rw [hfsum]
        simp only [List.length_nil, Nat.zero_add]
        omega

theorem goodCompares_single : GoodCompares [(0, ffAtLeast5)] := by
  intro kff hm
  rcases List.mem_singleton.mp hm with rfl
  exact ⟨compareSub_flip, compareSub_trans⟩

/-- Witness for C3 (amended): population size `1`, parents `[0]` and
offspring `[1]` (no aliasing): the next parent population exists and has
exactly one chromosome. -/
theorem mosa_population_size_witness :
    GoodCompares [(0, ffAtLeast5)] ∧
    (([0] ++ [1] : List ℕ)).Nodup ∧
    ∃ P2, mosaNextPopulation (fun _ => 1) [(0, ffAtLeast5)] (fun _ => none) 1 id
        [0] [1] = some P2 ∧ P2.length = 1 :=
  ⟨goodCompares_single, by decide,
   mosa_population_size (fun _ => 1) [(0, ffAtLeast5)] (fun _ => none) 1 id [0] [1]
     goodCompares_single (by omega) rfl rfl (by decide) (fun _ => rfl)⟩

/-- C3 counterexample: the claim as stated fails on the code.  Population
size `N = 4` with `N` goals (`ffsStepped`, all uncovered), parents
`[0, 1, 2, 3]` and offspring `[2, 4, 5, 6]` — chromosome `2` is an
offspring that aliases a parent, which MOSA produces whenever a selected
parent undergoes neither crossover nor mutation — so `|R| = 2N = 8`.
Preference sorting puts `0` into the best front; in fast non-dominated
sorting the duplicated object `2` is entered into the domination counts
twice but processed as a front member only once, so chromosomes `4, 5, 6`
(each dominated by `1` and by both occurrences of `2`) never reach
domination count zero and are dropped.  The assembled next population is
`[0, 1, 2]`, of size `3 ≠ 4`.  (Every front is a singleton here, so the
abstracted `subVectorDominanceSorting` permutation is necessarily the
identity.) -/
theorem mosa_population_size_counterexample :
    ([0, 1, 2, 3] : List ℕ).length = 4 ∧ ([2, 4, 5, 6] : List ℕ).length = 4 ∧
    mosaNextPopulation (fun _ => 1) ffsStepped (fun _ => none) 4 id
      [0, 1, 2, 3] [2, 4, 5, 6] = some [0, 1, 2] ∧
    Option.map List.length (mosaNextPopulation (fun _ => 1) ffsStepped
      (fun _ => none) 4 id [0, 1, 2, 3] [2, 4, 5, 6]) ≠ some 4 := by
  refine ⟨rfl, rfl, by decide, by decide⟩

end Whisker
